import Mathlib

/-!
Rule-table parser and command dispatch of mime-run: a shallow embedding of `mime-run.c`.

* A `char*` cursor into the NUL-terminated configuration buffer is the list of the
  characters from the cursor onwards.  The end of the list is the terminating NUL,
  and a `'\x00'` character inside the list terminates the C string just the same:
  every test of the source on `**data` is a test on `cur data`.
* `(*data)++` is `List.tail`; the source never advances past a NUL.
* The linked lists `struct str_node` and `struct mime_command` are Lean lists.
* `exit(1)` inside `parse_word` is the result `Parse.unexpected`.
* The recursive functions `parse_command` and `parse_lines` carry a fuel argument;
  the entry points give them more fuel than there are characters left, which is
  shown below to be always enough.
* The diagnostic `printf` calls to standard output are not modelled.
* The block that `parse_config` reads the file into is a list of bytes, `none` for a byte
  whose value is indeterminate; `main` is a function of its argument vector and of what
  `fopen` and `get_mime_type` give, and returns the calls made and how the process ends.
-/

namespace MimeRun

/-! ## Data model -/

/-- Rule of the table, `struct mime_command` without its `next` pointer. -/
structure mime_command where
  mime : String
  command : List String
  deriving DecidableEq, Repr

/-- Result of a parsing function.  `ok value data` is a normal return of `value` with the
cursor advanced to `data`; `unexpected c` is the `exit(1)` of `parse_word` after printing
`mime-run: unexpected char in config 'c'`; `fuel` is the model running out of fuel. -/
inductive Parse (α : Type) where
  | ok (value : α) (data : List Char)
  | unexpected (c : Char)
  | fuel
  deriving DecidableEq, Repr

/-- How the process ends.  `exit status stderr` is `exit(status)` (or `return status` from
`main`) after writing `stderr` to standard error.  `execvp file argv` is the call
`execvp(file, argv)`, with `none` for a null pointer: the process image is replaced, or, when
the call fails, `mime-run: Failed to execute command` is printed and the process exits with
status 1. -/
inductive Outcome where
  | exit (status : Nat) (stderr : String)
  | execvp (file : Option String) (argv : List (Option String))
  deriving DecidableEq, Repr

/-! ## Parser -/

/-- Character under the cursor, `**data`. -/
def cur (data : List Char) : Char :=
  match data with
  | [] => '\x00'
  | c :: _ => c

/-- Source `isws`: whitespace that is not a newline. -/
def isws (c : Char) : Bool :=
  c == ' ' || c == '\t'

/-- Source `parse_skip_ws`: `while( isws(**data) ) (*data)++;`. -/
def parse_skip_ws : List Char → List Char
  | [] => []
  | c :: cs => if isws c then parse_skip_ws cs else c :: cs

/-- The three scanning loops of `parse_word`:
`while( **data != '\0' && **data != '\n' && !stop(**data) ) (*data)++;`. -/
def scan_word (stop : Char → Bool) : List Char → List Char
  | [] => []
  | c :: cs => if c != '\x00' && c != '\n' && !stop c then scan_word stop cs else c :: cs

/-- Library `strndup(start, n)`: a copy of at most `n` characters of the C string `start`. -/
def strndup (start : List Char) (n : Nat) : String :=
  String.mk ((start.takeWhile (fun c => c != '\x00')).take n)

/-- Source `parse_word`.  Returns the word and the advanced cursor. -/
def parse_word (start : List Char) : Parse String :=
  let data :=
    if cur start == '"' then scan_word (fun c => c == '"') start
    else if cur start == '\'' then scan_word (fun c => c == '\'') start
    else scan_word isws start
  if !(cur data == '\x00' || cur data == '\n' || isws (cur data)) then
    .unexpected (cur data)
  else
    .ok (strndup start (start.length - data.length)) data

/-- Source `parse_command`, with fuel for the recursive call. -/
def parse_command_fuel : Nat → List Char → Parse (List String)
  | 0, _ => .fuel
  | fuel + 1, data =>
    let data := parse_skip_ws data
    if cur data == '\n' || cur data == '\x00' then .ok [] data
    else
      match parse_word data with
      | .unexpected c => .unexpected c
      | .fuel => .fuel
      | .ok str data =>
        match parse_command_fuel fuel data with
        | .unexpected c => .unexpected c
        | .fuel => .fuel
        | .ok next data => .ok (str :: next) data

/-- Source `parse_command`. -/
def parse_command (data : List Char) : Parse (List String) :=
  parse_command_fuel (data.length + 1) data

/-- Source `parse_lines`, with fuel for the recursive call. -/
def parse_lines_fuel : Nat → List Char → Parse (List mime_command)
  | 0, _ => .fuel
  | fuel + 1, data =>
    let data := if cur data == '\n' then data.tail else data
    if cur data == '\x00' then .ok [] data
    else
      let data := parse_skip_ws data
      match parse_word data with
      | .unexpected c => .unexpected c
      | .fuel => .fuel
      | .ok mime data =>
        let data := parse_skip_ws data
        match parse_command data with
        | .unexpected c => .unexpected c
        | .fuel => .fuel
        | .ok command data =>
          match parse_lines_fuel fuel data with
          | .unexpected c => .unexpected c
          | .fuel => .fuel
          | .ok next data => .ok ({ mime := mime, command := command } :: next) data

/-- Source `parse_lines`. -/
def parse_lines (data : List Char) : Parse (List mime_command) :=
  parse_lines_fuel (data.length + 1) data

/-- Loop condition of the unquoted branch of `parse_word`: the character belongs to the
word. -/
def word_char (c : Char) : Bool :=
  c != '\x00' && c != '\n' && !isws c

/-- Result of a recursive parser with one more element put in front of the returned list. -/
def Parse.prepend {α : Type} (a : α) : Parse (List α) → Parse (List α)
  | .ok next data => .ok (a :: next) data
  | .unexpected c => .unexpected c
  | .fuel => .fuel

/-- Result of a recursive parser with the elements of `front` put in front of the returned
list. -/
def Parse.extend {α : Type} (front : List α) : Parse (List α) → Parse (List α)
  | .ok next data => .ok (front ++ next) data
  | .unexpected c => .unexpected c
  | .fuel => .fuel

/-! ## Lines and words of a configuration text -/

/-- Words of a line: the maximal runs of characters other than space and tab. -/
def words (line : List Char) : List (List Char) :=
  (line.splitOnP isws).filter (fun w => !w.isEmpty)

/-- Rule that a line stands for: its first word as media type, its other words as command.
A line without any word stands for the rule with an empty media type and no command. -/
def rule_of_line (line : List Char) : mime_command :=
  { mime := String.mk ((words line).headD []), command := (words line).tail.map String.mk }

/-- Configuration text made of the given lines, each terminated by a newline. -/
def unlines : List (List Char) → List Char
  | [] => []
  | line :: lines => line ++ '\n' :: unlines lines

/-- Line of a configuration text in which no word is quoted: it holds no newline and no NUL
(it is one line of a C string) and none of its words starts with a quote character. -/
def plain_line (line : List Char) : Prop :=
  (∀ c ∈ line, c ≠ '\n' ∧ c ≠ '\x00') ∧ ∀ w ∈ words line, cur w ≠ '"' ∧ cur w ≠ '\''

instance (line : List Char) : Decidable (plain_line line) := by
  unfold plain_line; infer_instance

/-! ## Dispatch -/

/-- Source `run_command`.  `cmds` is the `calloc`ed array of `n+1` pointers. -/
def run_command (command : List String) (fname : String) : Outcome :=
  match command with
  | [] => .exit 0 ""
  | _ :: _ =>
    let n := command.foldl (fun n _ => n + 1) 1
    let cmds : List (Option String) := List.replicate (n + 1) none
    let cmds := (command.foldl
      (fun (st : List (Option String) × Nat) str => (st.1.set st.2 (some str), st.2 + 1))
      (cmds, 0)).1
    let cmds := cmds.set (n - 1) (some fname)
    let cmds := cmds.set n none
    .execvp (cmds.getD 0 none) cmds

/-- The rule loop at the end of source `main`: `run_command` does not return, so the loop
goes on only after a rule that does not match. -/
def dispatch_loop (mime fname : String) : List mime_command → Outcome
  | [] => .exit 1 "mime-run: No appropriate mime rule found\n"
  | rule :: next =>
    if mime = rule.mime then run_command rule.command fname
    else dispatch_loop mime fname next

/-! ## Shape of lines and tokens -/

/-- Character of a line: neither the newline nor the NUL, on which `parse_command` stops. -/
def line_char (c : Char) : Bool :=
  c != '\n' && c != '\x00'

/-- Shape of a token: it holds no space, tab, newline or NUL and does not start with a quote
character. -/
def token_ok (t : String) : Prop :=
  (∀ c ∈ t.data, c ≠ ' ' ∧ c ≠ '\t' ∧ c ≠ '\n' ∧ c ≠ '\x00') ∧
    cur t.data ≠ '"' ∧ cur t.data ≠ '\''

instance (t : String) : Decidable (token_ok t) := by
  unfold token_ok; infer_instance

/-- Word that starts with a quote character. -/
def quoted (w : List Char) : Bool :=
  cur w == '"' || cur w == '\''

/-- Scan of a text for a word that starts with a quote character: `sep` tells that the
character before the cursor is a space, a tab or a newline, or that the cursor is at the
start of the text, so that a word starts at the cursor unless a blank, a newline or the NUL
is there.  The scan ends at the first NUL. -/
def quoted_word_from (sep : Bool) : List Char → Bool
  | [] => false
  | c :: cs =>
    if c == '\x00' then false
    else if sep && (c == '"' || c == '\'') then true
    else quoted_word_from (isws c || c == '\n') cs

/-- Some word of the text, before its first NUL, starts with a quote character. -/
def has_quoted_word (text : List Char) : Bool :=
  quoted_word_from true text

/-- Cursor on the NUL that terminates the C string under the cursor `data`. -/
def c_end (data : List Char) : List Char :=
  data.dropWhile (fun c => c != '\x00')

/-! ## Reading the configuration and `main` -/

/-- Source `CHUNK`. -/
def CHUNK : Nat := 4096

/-- Library `malloc(size)`: a block of `size` bytes, each of them indeterminate (`none`). -/
def malloc (size : Nat) : List (Option Char) :=
  List.replicate size none

/-- Library `realloc(data, size)`: a block of `size` bytes that keeps the bytes of `data` up
to the smaller of the two sizes; the bytes added are indeterminate. -/
def realloc (data : List (Option Char)) (size : Nat) : List (Option Char) :=
  data.take size ++ List.replicate (size - data.length) none

/-- Library `fread(data, 1, size, f)` on a regular file of which the bytes `f` are still to
be read: up to `size` bytes are copied to the start of the block `data`.  Returns the block,
the number of bytes read and the bytes of the file that remain. -/
def fread (data : List (Option Char)) (size : Nat) (f : List Char) :
    List (Option Char) × Nat × List Char :=
  ((f.take size).map some ++ data.drop (f.take size).length, (f.take size).length, f.drop size)

/-- Variables of `parse_config` after its reading loop.  The `int` counters are natural
numbers here: no file considered below comes near `2^31` bytes. -/
structure Buffer where
  data : List (Option Char)
  n_alloc : Nat
  nread : Nat
  deriving DecidableEq, Repr

/-- The reading loop of source `parse_config`, with fuel for its iterations:
`while( (nread = fread(data, 1, CHUNK, f)) == CHUNK ) data = realloc(data, CHUNK * (++n_alloc));`
`none` is the model running out of fuel. -/
def read_loop_fuel : Nat → Nat → List (Option Char) → Nat → List Char → Option Buffer
  | 0, _, _, _, _ => none
  | fuel + 1, chunk, data, n_alloc, f =>
    match fread data chunk f with
    | (data, nread, f) =>
      if nread == chunk then
        read_loop_fuel fuel chunk (realloc data (chunk * (n_alloc + 1))) (n_alloc + 1) f
      else some { data := data, n_alloc := n_alloc, nread := nread }

/-- Source `parse_config` from `malloc(CHUNK)` to the end of the reading loop, on a file with
the bytes `file`. -/
def read_whole_file (file : List Char) : Option Buffer :=
  read_loop_fuel (file.length + 1) CHUNK (malloc CHUNK) 0 file

/-- Source `parse_config`, `total = n_alloc * CHUNK + nread; data[total] = '\0';`: the block
after the store, or `none` when the store is outside the block. -/
def terminate (buf : Buffer) : Option (List (Option Char)) :=
  if buf.n_alloc * CHUNK + buf.nread < buf.data.length then
    some (buf.data.set (buf.n_alloc * CHUNK + buf.nread) (some '\x00'))
  else none

/-- C string at the start of a block: its characters before the first NUL, or `none` when an
indeterminate byte or the end of the block comes before a NUL. -/
def c_string : List (Option Char) → Option (List Char)
  | [] => none
  | none :: _ => none
  | some c :: cs => if c == '\x00' then some [] else (c_string cs).map (fun s => c :: s)

/-- Result of `parse_config`.  `exit status stderr` is the `exit(1)` of `FAILIF` after
`perror`; `undefined` is undefined behaviour (a store outside the block, or a read of
indeterminate bytes); `parsed result` is what `parse_lines` gives on the buffer. -/
inductive Config where
  | exit (status : Nat) (stderr : String)
  | undefined
  | parsed (result : Parse (List mime_command))
  deriving DecidableEq, Repr

/-- Source `parse_config`.  `config` is what `fopen` gives: the bytes of the file, or the
text of `strerror(errno)` when the file cannot be opened. -/
def parse_config (config : Except String (List Char)) : Config :=
  match config with
  | .error err => .exit 1 ("mime-run: " ++ err ++ "\n")
  | .ok file =>
    match read_whole_file file with
    | none => .undefined
    | some buf =>
      match terminate buf with
      | none => .undefined
      | some data =>
        match c_string data with
        | none => .undefined
        | some text => .parsed (parse_lines text)

/-- Calls of `main` to its collaborators, in the order in which they are made. -/
inductive Event where
  | fopen (fname : String)
  | get_mime_type (filename : String)
  deriving DecidableEq, Repr

/-- What a run of the program is: the calls made and how the process ends, or undefined
behaviour after some calls. -/
inductive Run where
  | ended (events : List Event) (outcome : Outcome)
  | undefined (events : List Event)
  deriving DecidableEq, Repr

/-- Environment of a run: what `fopen("config", "r")` gives, and what source `get_mime_type`
does for a file name: it leaves the media type in `mime`, or writes a message and calls
`exit(1)`. -/
structure Env where
  config : Except String (List Char)
  classify : String → Except String String

/-- Source `main`, `argv` being the argument vector (`argc` is its length). -/
def main (argv : List String) (env : Env) : Run :=
  if argv.length == 1 then .ended [] (.exit 1 "mime-run: Filename is not given.")
  else
    match parse_config env.config with
    | .exit status stderr => .ended [.fopen "config"] (.exit status stderr)
    | .undefined => .undefined [.fopen "config"]
    | .parsed (.unexpected c) =>
      .ended [.fopen "config"]
        (.exit 1 ("mime-run: unexpected char in config " ++ String.mk [Char.ofNat 39, c, Char.ofNat 39] ++ "\n"))
    | .parsed .fuel => .undefined [.fopen "config"]
    | .parsed (.ok mime_data _) =>
      match argv[1]? with
      | none => .undefined [.fopen "config"]
      | some fname =>
        match env.classify fname with
        | .error stderr =>
          .ended [.fopen "config", .get_mime_type fname] (.exit 1 stderr)
        | .ok mime =>
          .ended [.fopen "config", .get_mime_type fname] (dispatch_loop mime fname mime_data)

/-! ## Cursor movement -/

theorem isws_cur_parse_skip_ws (data : List Char) : isws (cur (parse_skip_ws data)) = false := by
  induction data with
  | nil => decide
  | cons c cs ih =>
    by_cases h : isws c = true
    · simpa [parse_skip_ws, h] using ih
    · simp [parse_skip_ws, h, cur]

theorem parse_skip_ws_length_le (data : List Char) :
    (parse_skip_ws data).length ≤ data.length := by
  induction data with
  | nil => simp [parse_skip_ws]
  | cons c cs ih =>
    by_cases h : isws c = true
    · simp only [parse_skip_ws, h, if_true, List.length_cons]; omega
    · simp [parse_skip_ws, h]

theorem parse_skip_ws_eq_self {data : List Char} (h : isws (cur data) = false) :
    parse_skip_ws data = data := by
  cases data with
  | nil => rfl
  | cons c cs => simp only [cur] at h; simp [parse_skip_ws, h]

theorem parse_skip_ws_length_lt {data : List Char} (h : isws (cur data) = true) :
    (parse_skip_ws data).length < data.length := by
  cases data with
  | nil => simp [cur, isws] at h
  | cons c cs =>
    simp only [cur] at h
    have := parse_skip_ws_length_le cs
    simp only [parse_skip_ws, h, if_true, List.length_cons]; omega

theorem parse_skip_ws_idem (data : List Char) :
    parse_skip_ws (parse_skip_ws data) = parse_skip_ws data :=
  parse_skip_ws_eq_self (isws_cur_parse_skip_ws data)

theorem parse_skip_ws_append {ws : List Char} (h : ∀ c ∈ ws, isws c = true) (data : List Char) :
    parse_skip_ws (ws ++ data) = parse_skip_ws data := by
  induction ws with
  | nil => rfl
  | cons c cs ih =>
    have hc : isws c = true := h c (List.mem_cons_self _ _)
    simp only [List.cons_append, parse_skip_ws, hc, if_true]
    exact ih (fun x hx => h x (List.mem_cons_of_mem _ hx))

theorem scan_word_length_le (stop : Char → Bool) (data : List Char) :
    (scan_word stop data).length ≤ data.length := by
  induction data with
  | nil => simp [scan_word]
  | cons c cs ih =>
    simp only [scan_word]
    split
    · simp only [List.length_cons]; omega
    · exact Nat.le_refl _

/-- The scanning loop leaves the cursor at the first character that ends the word. -/
theorem scan_word_eq_dropWhile (stop : Char → Bool) (data : List Char) :
    scan_word stop data = data.dropWhile (fun c => c != '\x00' && c != '\n' && !stop c) := by
  induction data with
  | nil => rfl
  | cons c cs ih =>
    simp only [scan_word, List.dropWhile_cons]
    split <;> simp_all

/-- When the character under the cursor is the stop character itself, the loop does not move. -/
theorem scan_word_stop {stop : Char → Bool} {data : List Char} (h : stop (cur data) = true) :
    scan_word stop data = data := by
  cases data with
  | nil => rfl
  | cons c cs => simp only [cur] at h; simp [scan_word, h]

theorem strndup_takeWhile (p : Char → Bool) (hp : ∀ c, p c = true → c ≠ '\x00')
    (data : List Char) :
    strndup data (data.length - (data.dropWhile p).length) = String.mk (data.takeWhile p) := by
  unfold strndup
  congr 1
  induction data with
  | nil => rfl
  | cons c cs ih =>
    by_cases h : p c = true
    · have h0 : c ≠ '\x00' := hp c h
      simp only [List.takeWhile_cons, List.dropWhile_cons, h, if_true, List.length_cons]
      have hle : (cs.dropWhile p).length ≤ cs.length :=
        (List.dropWhile_suffix p).length_le
      have : cs.length + 1 - (cs.dropWhile p).length
          = (cs.length - (cs.dropWhile p).length) + 1 := by omega
      simp [this, h0, ih]
    · simp [List.takeWhile_cons, List.dropWhile_cons, h]

theorem word_char_cur_dropWhile (data : List Char) :
    word_char (cur (data.dropWhile word_char)) = false := by
  induction data with
  | nil => decide
  | cons c cs ih =>
    by_cases h : word_char c = true
    · simpa [List.dropWhile_cons, h] using ih
    · simp [List.dropWhile_cons, h, cur]

/-! ## `parse_word` -/

/-- A word that starts with a quote character stops the program: the scanning loop of the
quoted branch ends at once on the opening quote, which is not a word terminator. -/
theorem parse_word_quote {data : List Char} (h : cur data = '"' ∨ cur data = Char.ofNat 39) :
    parse_word data = .unexpected (cur data) := by
  rcases h with h | h
  · have hs : scan_word (fun c => c == '"') data = data := scan_word_stop (by simp [h])
    simp only [parse_word, h, beq_self_eq_true, if_true, hs]
    exact if_pos (by decide)
  · have hs : scan_word (fun c => c == Char.ofNat 39) data = data := scan_word_stop (by simp [h])
    have hq : ((Char.ofNat 39) == '"') = false := by decide
    have h39 : '\'' = Char.ofNat 39 := by decide
    simp only [parse_word, h, h39, hq, beq_self_eq_true, if_true, Bool.false_eq_true,
      if_false, hs]
    exact if_pos (by decide)

/-- An unquoted word is the longest run of word characters under the cursor. -/
theorem parse_word_unquoted {data : List Char} (h1 : cur data ≠ '"')
    (h2 : cur data ≠ Char.ofNat 39) :
    parse_word data = .ok (String.mk (data.takeWhile word_char)) (data.dropWhile word_char) := by
  have h39 : '\'' = Char.ofNat 39 := by decide
  have hs : scan_word isws data = data.dropWhile word_char := by
    rw [scan_word_eq_dropWhile]; rfl
  have hend := word_char_cur_dropWhile data
  have hdup := strndup_takeWhile word_char (by intro c hc; simp [word_char] at hc; exact hc.1.1) data
  simp only [parse_word, h39, beq_iff_eq, h1, h2, if_false, hs, hdup]
  simp only [word_char, Bool.and_eq_false_imp, Bool.and_eq_true, bne_iff_ne, ne_eq,
    Bool.not_eq_false'] at hend
  by_cases a : cur (List.dropWhile word_char data) = '\x00'
  · simp [a]
  · by_cases b : cur (List.dropWhile word_char data) = '\n'
    · simp [b]
    · simp [a, b, hend ⟨a, b⟩]

theorem parse_word_ok_length_le {data rest : List Char} {w : String}
    (h : parse_word data = .ok w rest) : rest.length ≤ data.length := by
  by_cases h1 : cur data = '"'
  · rw [parse_word_quote (Or.inl h1)] at h; cases h
  · by_cases h2 : cur data = Char.ofNat 39
    · rw [parse_word_quote (Or.inr h2)] at h; cases h
    · rw [parse_word_unquoted h1 h2] at h
      injection h with _ hr
      rw [← hr]
      exact (List.dropWhile_suffix word_char).length_le

/-- A successful `parse_word` on a word character moves the cursor. -/
theorem parse_word_ok_length_lt {data rest : List Char} {w : String}
    (h : parse_word data = .ok w rest) (hc : word_char (cur data) = true) :
    rest.length < data.length := by
  by_cases h1 : cur data = '"'
  · rw [parse_word_quote (Or.inl h1)] at h; cases h
  · by_cases h2 : cur data = Char.ofNat 39
    · rw [parse_word_quote (Or.inr h2)] at h; cases h
    · rw [parse_word_unquoted h1 h2] at h
      injection h with _ hr
      rw [← hr]
      cases data with
      | nil => simp [cur, word_char] at hc
      | cons c cs =>
        simp only [cur] at hc
        have := (List.dropWhile_suffix word_char (l := cs)).length_le
        simp only [List.dropWhile_cons, hc, if_true, List.length_cons]
        omega

theorem parse_word_ne_fuel (data : List Char) : parse_word data ≠ .fuel := by
  by_cases h1 : cur data = '"'
  · rw [parse_word_quote (Or.inl h1)]; exact fun h => by cases h
  · by_cases h2 : cur data = Char.ofNat 39
    · rw [parse_word_quote (Or.inr h2)]; exact fun h => by cases h
    · rw [parse_word_unquoted h1 h2]; exact fun h => by cases h

/-- After `parse_skip_ws`, a cursor that is on neither a newline nor the NUL is on a word
character. -/
theorem word_char_of_not_end {data : List Char} (hws : isws (cur data) = false)
    (hend : (cur data == '\n' || cur data == '\x00') = false) : word_char (cur data) = true := by
  simp only [Bool.or_eq_false_iff, beq_eq_false_iff_ne, ne_eq] at hend
  simp [word_char, hws, hend.1, hend.2]

/-! ## `parse_command` -/

theorem parse_command_fuel_indep (n m : Nat) (data : List Char)
    (hn : data.length < n) (hm : data.length < m) :
    parse_command_fuel n data = parse_command_fuel m data := by
  induction n generalizing m data with
  | zero => omega
  | succ n ih =>
    cases m with
    | zero => omega
    | succ m =>
      simp only [parse_command_fuel]
      by_cases hend : (cur (parse_skip_ws data) == '\n' || cur (parse_skip_ws data) == '\x00') = true
      · simp only [hend, if_true]
      · simp only [hend, if_false]
        cases hw : parse_word (parse_skip_ws data) with
        | unexpected c => rfl
        | fuel => rfl
        | ok str rest =>
          have hlt := parse_word_ok_length_lt hw
            (word_char_of_not_end (isws_cur_parse_skip_ws data) (by simpa using hend))
          have hle := parse_skip_ws_length_le data
          simp only []
          rw [ih m rest (by omega) (by omega)]

theorem parse_command_fuel_eq {n : Nat} {data : List Char} (hn : data.length < n) :
    parse_command_fuel n data = parse_command data :=
  parse_command_fuel_indep _ _ _ hn (Nat.lt_succ_self _)

/-- The body of `parse_command`, with the recursive call made through the entry point. -/
theorem parse_command_eq (data : List Char) :
    parse_command data =
      if cur (parse_skip_ws data) == '\n' || cur (parse_skip_ws data) == '\x00' then
        .ok [] (parse_skip_ws data)
      else
        match parse_word (parse_skip_ws data) with
        | .unexpected c => .unexpected c
        | .fuel => .fuel
        | .ok str rest => Parse.prepend str (parse_command rest) := by
  rw [parse_command]
  simp only [parse_command_fuel]
  by_cases hend : (cur (parse_skip_ws data) == '\n' || cur (parse_skip_ws data) == '\x00') = true
  · simp only [hend, if_true]
  · simp only [hend, if_false]
    cases hw : parse_word (parse_skip_ws data) with
    | unexpected c => rfl
    | fuel => rfl
    | ok str rest =>
      have hlt := parse_word_ok_length_lt hw
        (word_char_of_not_end (isws_cur_parse_skip_ws data) (by simpa using hend))
      have hle := parse_skip_ws_length_le data
      simp only []
      rw [parse_command_fuel_eq (by omega)]
      cases parse_command rest <;> rfl

theorem parse_command_skip_ws (data : List Char) :
    parse_command (parse_skip_ws data) = parse_command data := by
  rw [parse_command_eq, parse_command_eq data, parse_skip_ws_idem]

theorem parse_command_ok_length_le (n : Nat) :
    ∀ (data rest : List Char) (v : List String), data.length ≤ n →
      parse_command data = .ok v rest → rest.length ≤ data.length := by
  induction n with
  | zero =>
    intro data rest v hn h
    have hd : data = [] := List.length_eq_zero.mp (Nat.le_zero.mp hn)
    subst hd
    have : parse_command [] = .ok [] [] := by decide
    rw [this] at h
    injection h with _ hr
    simp [← hr]
  | succ n ih =>
    intro data rest v hn h
    rw [parse_command_eq] at h
    have hle := parse_skip_ws_length_le data
    by_cases hend : (cur (parse_skip_ws data) == '\n' || cur (parse_skip_ws data) == '\x00') = true
    · simp only [hend, if_true] at h
      injection h with _ hr
      rw [← hr]; exact hle
    · simp only [hend, if_false] at h
      cases hw : parse_word (parse_skip_ws data) with
      | unexpected c => rw [hw] at h; cases h
      | fuel => rw [hw] at h; cases h
      | ok str r =>
        rw [hw] at h
        simp only [] at h
        have hlt := parse_word_ok_length_lt hw
          (word_char_of_not_end (isws_cur_parse_skip_ws data) (by simpa using hend))
        cases hc : parse_command r with
        | unexpected c => rw [hc] at h; cases h
        | fuel => rw [hc] at h; cases h
        | ok next r2 =>
          rw [hc] at h
          simp only [Parse.prepend] at h
          injection h with _ hr
          have := ih r r2 next (by omega) hc
          rw [← hr]; omega

/-! ## `parse_lines` -/

/-- Start of a line in `parse_lines`: `if( **data == '\n' ) (*data)++;`. -/
theorem line_start_length_le (data : List Char) :
    (if cur data == '\n' then data.tail else data).length ≤ data.length := by
  split <;> simp

/-- Every pass of `parse_lines` that reaches its recursive call has moved the cursor. -/
theorem parse_lines_progress {data r1 r2 : List Char} {mime : String} {command : List String}
    (h0 : (cur (if cur data == '\n' then data.tail else data) == '\x00') = false)
    (hw : parse_word (parse_skip_ws (if cur data == '\n' then data.tail else data)) = .ok mime r1)
    (hc : parse_command (parse_skip_ws r1) = .ok command r2) : r2.length < data.length := by
  have h2 := parse_word_ok_length_le hw
  have h3 := parse_skip_ws_length_le r1
  have h4 := parse_command_ok_length_le _ _ _ _ (Nat.le_refl _) hc
  cases data with
  | nil => simp [cur] at h0
  | cons c cs =>
    by_cases hn : c = '\n'
    · have h1 := parse_skip_ws_length_le cs
      simp only [cur, hn, beq_self_eq_true, if_true, List.tail_cons] at hw h2
      simp only [List.length_cons]; omega
    · have hn' : (c == '\n') = false := by simpa using hn
      simp only [cur, hn', Bool.false_eq_true, if_false] at hw h0 h2
      by_cases hs : isws c = true
      · have h1 := @parse_skip_ws_length_lt (c :: cs) (by simpa [cur] using hs)
        omega
      · have hs' : isws c = false := by simpa using hs
        have hself : parse_skip_ws (c :: cs) = c :: cs := parse_skip_ws_eq_self (by simpa [cur] using hs')
        rw [hself] at hw
        have hwc : word_char (cur (c :: cs)) = true := by
          simp only [beq_eq_false_iff_ne, ne_eq] at h0
          simp [cur, word_char, hs', hn, h0]
        have := parse_word_ok_length_lt hw hwc
        omega

/-- One unfolding of `parse_lines_fuel`. -/
theorem parse_lines_fuel_succ (n : Nat) (data : List Char) :
    parse_lines_fuel (n + 1) data =
      if cur (if cur data == '\n' then data.tail else data) == '\x00' then
        .ok [] (if cur data == '\n' then data.tail else data)
      else
        match parse_word (parse_skip_ws (if cur data == '\n' then data.tail else data)) with
        | .unexpected c => .unexpected c
        | .fuel => .fuel
        | .ok mime r1 =>
          match parse_command (parse_skip_ws r1) with
          | .unexpected c => .unexpected c
          | .fuel => .fuel
          | .ok command r2 =>
            match parse_lines_fuel n r2 with
            | .unexpected c => .unexpected c
            | .fuel => .fuel
            | .ok next data => .ok ({ mime := mime, command := command } :: next) data := rfl

theorem parse_lines_fuel_indep (n m : Nat) (data : List Char)
    (hn : data.length < n) (hm : data.length < m) :
    parse_lines_fuel n data = parse_lines_fuel m data := by
  induction n generalizing m data with
  | zero => omega
  | succ n ih =>
    cases m with
    | zero => omega
    | succ m =>
      rw [parse_lines_fuel_succ, parse_lines_fuel_succ]
      by_cases h0 : (cur (if cur data == '\n' then data.tail else data) == '\x00') = true
      · simp only [h0, if_true]
      · simp only [h0, if_false]
        cases hw : parse_word (parse_skip_ws (if cur data == '\n' then data.tail else data)) with
        | unexpected c => rfl
        | fuel => rfl
        | ok mime r1 =>
          simp only []
          cases hc : parse_command (parse_skip_ws r1) with
          | unexpected c => rfl
          | fuel => rfl
          | ok command r2 =>
            have := parse_lines_progress (by simpa using h0) hw hc
            simp only []
            rw [ih m r2 (by omega) (by omega)]

theorem parse_lines_fuel_eq {n : Nat} {data : List Char} (hn : data.length < n) :
    parse_lines_fuel n data = parse_lines data :=
  parse_lines_fuel_indep _ _ _ hn (Nat.lt_succ_self _)

/-- The body of `parse_lines`, with the recursive call made through the entry point. -/
theorem parse_lines_eq (data : List Char) :
    parse_lines data =
      if cur (if cur data == '\n' then data.tail else data) == '\x00' then
        .ok [] (if cur data == '\n' then data.tail else data)
      else
        match parse_word (parse_skip_ws (if cur data == '\n' then data.tail else data)) with
        | .unexpected c => .unexpected c
        | .fuel => .fuel
        | .ok mime r1 =>
          match parse_command (parse_skip_ws r1) with
          | .unexpected c => .unexpected c
          | .fuel => .fuel
          | .ok command r2 =>
            Parse.prepend { mime := mime, command := command } (parse_lines r2) := by
  rw [parse_lines, parse_lines_fuel_succ]
  by_cases h0 : (cur (if cur data == '\n' then data.tail else data) == '\x00') = true
  · simp only [h0, if_true]
  · simp only [h0, if_false]
    cases hw : parse_word (parse_skip_ws (if cur data == '\n' then data.tail else data)) with
    | unexpected c => rfl
    | fuel => rfl
    | ok mime r1 =>
      simp only []
      cases hc : parse_command (parse_skip_ws r1) with
      | unexpected c => rfl
      | fuel => rfl
      | ok command r2 =>
        have := parse_lines_progress (by simpa using h0) hw hc
        simp only []
        rw [parse_lines_fuel_eq (by omega)]
        cases parse_lines r2 <;> rfl

/-! ## Words of a line -/

theorem words_nil : words [] = [] := by decide

theorem words_cons_ws {c : Char} (hc : isws c = true) (cs : List Char) :
    words (c :: cs) = words cs := by
  simp [words, List.splitOnP_cons, hc]

theorem words_append_ws {ws : List Char} (h : ∀ c ∈ ws, isws c = true) (line : List Char) :
    words (ws ++ line) = words line := by
  induction ws with
  | nil => rfl
  | cons c cs ih =>
    rw [List.cons_append, words_cons_ws (h c (List.mem_cons_self _ _))]
    exact ih (fun x hx => h x (List.mem_cons_of_mem _ hx))

/-- A non-empty run of non-blank characters that ends the line or is followed by a blank is
the first word of the line. -/
theorem words_append {w r : List Char} (hne : w ≠ []) (hw : ∀ c ∈ w, isws c = false)
    (hr : r = [] ∨ isws (cur r) = true) : words (w ++ r) = w :: words r := by
  have hw' : ∀ c ∈ w, ¬ (isws c = true) := fun c hc => by simp [hw c hc]
  have hemp : w.isEmpty = false := by cases w <;> simp_all
  rcases hr with hr | hr
  · subst hr
    simp [words, List.splitOnP_eq_single isws w hw', hemp]
  · cases r with
    | nil => simp [cur, isws] at hr
    | cons c cs =>
      simp only [cur] at hr
      rw [words_cons_ws hr]
      simp [words, List.splitOnP_first isws w hw' c hr, hemp]

theorem word_char_takeWhile_append {w x : List Char} (hw : ∀ c ∈ w, word_char c = true)
    (hx : word_char (cur x) = false) :
    (w ++ x).takeWhile word_char = w ∧ (w ++ x).dropWhile word_char = x := by
  induction w with
  | nil =>
    cases x with
    | nil => simp
    | cons c cs => simp only [cur] at hx; simp [List.takeWhile_cons, List.dropWhile_cons, hx]
  | cons c cs ih =>
    have hc : word_char c = true := hw c (List.mem_cons_self _ _)
    have := ih (fun y hy => hw y (List.mem_cons_of_mem _ hy))
    simp [List.takeWhile_cons, List.dropWhile_cons, hc, this]

/-- In a line of a C string, the first word under the cursor is made of non-blank characters
and is followed by a blank or by the end of the line. -/
theorem plain_split {line : List Char} (hl : ∀ c ∈ line, c ≠ '\n' ∧ c ≠ '\x00') :
    (∀ c ∈ line.takeWhile word_char, isws c = false) ∧
      (line.dropWhile word_char = [] ∨ isws (cur (line.dropWhile word_char)) = true) := by
  constructor
  · intro c hc
    have := List.mem_takeWhile_imp hc
    simp only [word_char, Bool.and_eq_true, Bool.not_eq_true'] at this
    exact this.2
  · have hend := word_char_cur_dropWhile line
    cases hr : line.dropWhile word_char with
    | nil => exact Or.inl rfl
    | cons c cs =>
      right
      rw [hr] at hend
      simp only [cur] at hend ⊢
      have hmem : c ∈ line := by
        have : c ∈ line.dropWhile word_char := by rw [hr]; exact List.mem_cons_self _ _
        exact (List.dropWhile_suffix word_char).subset this
      have := hl c hmem
      simp only [word_char, Bool.and_eq_false_imp, Bool.and_eq_true, bne_iff_ne, ne_eq,
        Bool.not_eq_false'] at hend
      exact hend ⟨this.2, this.1⟩

/-- Word step: on a line that starts with a non-blank character, the words of the line are
the run of word characters under the cursor followed by the words of what remains. -/
theorem words_step {line : List Char} (hl : ∀ c ∈ line, c ≠ '\n' ∧ c ≠ '\x00')
    (hc : isws (cur line) = false) (hne : line ≠ []) :
    line.takeWhile word_char ≠ [] ∧
      words line = line.takeWhile word_char :: words (line.dropWhile word_char) ∧
      (line.dropWhile word_char).length < line.length := by
  cases line with
  | nil => exact absurd rfl hne
  | cons c cs =>
    simp only [cur] at hc
    have hc0 := hl c (List.mem_cons_self _ _)
    have hwc : word_char c = true := by simp [word_char, hc, hc0.1, hc0.2]
    have hsplit := plain_split hl
    refine ⟨by simp [List.takeWhile_cons, hwc], ?_, ?_⟩
    · have := words_append (w := (c :: cs).takeWhile word_char)
        (r := (c :: cs).dropWhile word_char) (by simp [List.takeWhile_cons, hwc]) hsplit.1 hsplit.2
      rw [List.takeWhile_append_dropWhile] at this
      exact this
    · have := (List.dropWhile_suffix word_char (l := cs)).length_le
      simp only [List.dropWhile_cons, hwc, if_true, List.length_cons]
      omega

theorem plain_line_dropWhile {line : List Char} (h : plain_line line)
    (hc : isws (cur line) = false) (hne : line ≠ []) :
    plain_line (line.dropWhile word_char) := by
  refine ⟨fun c hx => h.1 c ((List.dropWhile_suffix word_char).subset hx), fun w hw => ?_⟩
  apply h.2 w
  rw [(words_step h.1 hc hne).2.1]
  exact List.mem_cons_of_mem _ hw

/-- The word that `parse_word` returns at a non-blank character of a plain line. -/
theorem parse_word_plain {line : List Char} (h : plain_line line)
    (hc : isws (cur line) = false) (hne : line ≠ []) (data : List Char)
    (hd : word_char (cur data) = false) :
    parse_word (line ++ data) =
      .ok (String.mk (line.takeWhile word_char)) (line.dropWhile word_char ++ data) := by
  have hstep := words_step h.1 hc hne
  have hq := h.2 (line.takeWhile word_char) (by rw [hstep.2.1]; exact List.mem_cons_self _ _)
  have hcur : cur (line ++ data) = cur (line.takeWhile word_char) := by
    cases line with
    | nil => exact absurd rfl hne
    | cons c cs =>
      have hne' := hstep.1
      by_cases hwc : word_char c = true
      · simp [cur, List.takeWhile_cons, hwc]
      · simp [List.takeWhile_cons, hwc] at hne'
  have hrest : word_char (cur (line.dropWhile word_char ++ data)) = false := by
    cases hr : line.dropWhile word_char with
    | nil => simpa using hd
    | cons c cs =>
      have := word_char_cur_dropWhile line
      rw [hr] at this
      simpa [cur] using this
  have happ := word_char_takeWhile_append (w := line.takeWhile word_char)
    (x := line.dropWhile word_char ++ data) (fun c hx => List.mem_takeWhile_imp hx) hrest
  rw [← List.append_assoc, List.takeWhile_append_dropWhile] at happ
  rw [parse_word_unquoted (by rw [hcur]; exact hq.1) (by rw [hcur]; exact hq.2), happ.1, happ.2]

/-- Command of a plain line: `parse_command` returns the words between the cursor and the end
of the line and stops on the line terminator. -/
theorem parse_command_plain (n : Nat) :
    ∀ (line data : List Char), line.length ≤ n → plain_line line →
      (cur data == '\n' || cur data == '\x00') = true →
      parse_command (line ++ data) = .ok ((words line).map String.mk) data := by
  induction n with
  | zero =>
    intro line data hn _ hd
    have hl : line = [] := List.length_eq_zero.mp (Nat.le_zero.mp hn)
    subst hl
    have hws : isws (cur data) = false := by
      simp only [Bool.or_eq_true, beq_iff_eq] at hd
      rcases hd with hd | hd <;> rw [hd] <;> decide
    rw [List.nil_append, parse_command_eq, parse_skip_ws_eq_self hws, if_pos hd, words_nil]
    rfl
  | succ n ih =>
    intro line data hn hp hd
    have hdws : isws (cur data) = false := by
      simp only [Bool.or_eq_true, beq_iff_eq] at hd
      rcases hd with hd | hd <;> rw [hd] <;> decide
    have hdwc : word_char (cur data) = false := by
      simp only [Bool.or_eq_true, beq_iff_eq] at hd
      rcases hd with hd | hd <;> rw [hd] <;> decide
    cases line with
    | nil =>
      rw [List.nil_append, parse_command_eq, parse_skip_ws_eq_self hdws, if_pos hd, words_nil]
      rfl
    | cons c cs =>
      by_cases hc : isws c = true
      · have hcs : plain_line cs := by
          refine ⟨fun x hx => hp.1 x (List.mem_cons_of_mem _ hx), fun w hw => hp.2 w ?_⟩
          rw [words_cons_ws hc]; exact hw
        have h1 : parse_command (c :: cs ++ data) = parse_command (cs ++ data) := by
          rw [← parse_command_skip_ws, List.cons_append]
          simp only [parse_skip_ws, hc, if_true]
          exact parse_command_skip_ws _
        rw [h1, words_cons_ws hc]
        exact ih cs data (by simp only [List.length_cons] at hn; omega) hcs hd
      · have hc' : isws (cur (c :: cs)) = false := by simpa [cur] using hc
        have hstep := words_step hp.1 hc' (List.cons_ne_nil _ _)
        have hw := parse_word_plain hp hc' (List.cons_ne_nil _ _) data hdwc
        have hrec := ih ((c :: cs).dropWhile word_char) data
          (by have := hstep.2.2; omega) (plain_line_dropWhile hp hc' (List.cons_ne_nil _ _)) hd
        have hc0 := hp.1 c (List.mem_cons_self _ _)
        have hskip : parse_skip_ws (c :: cs ++ data) = c :: cs ++ data :=
          parse_skip_ws_eq_self (by simpa [cur] using hc)
        have hcond : (cur (c :: cs ++ data) == '\n' || cur (c :: cs ++ data) == '\x00') = false := by
          simp [cur, hc0.1, hc0.2]
        rw [parse_command_eq, hskip, hcond, hw]
        simp only [Bool.false_eq_true, if_false]
        rw [hrec, hstep.2.1]
        rfl

/-! ## Lines of the table -/

theorem parse_skip_ws_line (line data : List Char) (hd : isws (cur data) = false) :
    parse_skip_ws (line ++ data) = line.dropWhile isws ++ data := by
  induction line with
  | nil => exact parse_skip_ws_eq_self hd
  | cons c cs ih =>
    by_cases hc : isws c = true
    · simp only [List.cons_append, parse_skip_ws, hc, if_true, List.dropWhile_cons]
      exact ih
    · simp [parse_skip_ws, hc, List.dropWhile_cons]

theorem words_dropWhile_ws (line : List Char) : words (line.dropWhile isws) = words line := by
  induction line with
  | nil => rfl
  | cons c cs ih =>
    by_cases hc : isws c = true
    · simp only [List.dropWhile_cons, hc, if_true, words_cons_ws hc]; exact ih
    · simp [List.dropWhile_cons, hc]

theorem isws_cur_dropWhile (line : List Char) : isws (cur (line.dropWhile isws)) = false := by
  induction line with
  | nil => decide
  | cons c cs ih =>
    by_cases hc : isws c = true
    · simpa [List.dropWhile_cons, hc] using ih
    · simp [List.dropWhile_cons, hc, cur]

theorem plain_line_dropWhile_ws {line : List Char} (h : plain_line line) :
    plain_line (line.dropWhile isws) :=
  ⟨fun c hx => h.1 c ((List.dropWhile_suffix isws).subset hx),
    fun w hw => h.2 w (by rw [← words_dropWhile_ws]; exact hw)⟩

theorem line_start_newline (data : List Char) :
    (if cur ('\n' :: data) == '\n' then ('\n' :: data).tail else '\n' :: data) = data := by
  simp [cur]

/-- One pass of `parse_lines` over a plain line: entered on the newline that ends the line
before, it puts the rule of the line in front of what the recursive call, entered on the
newline that ends this line, returns. -/
theorem parse_lines_line {line : List Char} (h : plain_line line) (rest : List Char) :
    parse_lines ('\n' :: (line ++ '\n' :: rest)) =
      Parse.prepend (rule_of_line line) (parse_lines ('\n' :: rest)) := by
  have hnl : (cur ('\n' :: rest) == '\n' || cur ('\n' :: rest) == '\x00') = true := by
    simp [cur]
  have h0 : (cur (line ++ '\n' :: rest) == '\x00') = false := by
    cases line with
    | nil => simp [cur]
    | cons c cs => simpa [cur] using (h.1 c (List.mem_cons_self _ _)).2
  have hskip : parse_skip_ws (line ++ '\n' :: rest) = line.dropWhile isws ++ '\n' :: rest :=
    parse_skip_ws_line _ _ (by simp [cur, isws])
  have hp := plain_line_dropWhile_ws h
  have hws := isws_cur_dropWhile line
  rw [parse_lines_eq, line_start_newline]
  simp only [h0, Bool.false_eq_true, if_false, hskip]
  by_cases hne : line.dropWhile isws = []
  · have hw : parse_word ('\n' :: rest) = .ok "" ('\n' :: rest) := by
      rw [parse_word_unquoted (by simp [cur]) (by simp [cur])]
      simp [List.takeWhile_cons, List.dropWhile_cons, word_char]
    have hc : parse_command (parse_skip_ws ('\n' :: rest)) = .ok [] ('\n' :: rest) := by
      rw [parse_command_skip_ws]
      exact parse_command_plain 0 [] _ (Nat.le_refl _) (by decide) hnl
    have hr : rule_of_line line = { mime := "", command := [] } := by
      simp [rule_of_line, ← words_dropWhile_ws line, hne, words_nil]
    rw [hne, List.nil_append, hw]
    simp only [hc, hr]
  · have hstep := words_step hp.1 hws hne
    have hw := parse_word_plain hp hws hne ('\n' :: rest) (by simp [cur, word_char])
    have hc : parse_command (parse_skip_ws
          ((line.dropWhile isws).dropWhile word_char ++ '\n' :: rest)) =
        .ok ((words ((line.dropWhile isws).dropWhile word_char)).map String.mk) ('\n' :: rest) := by
      rw [parse_command_skip_ws]
      exact parse_command_plain _ _ _ (Nat.le_refl _) (plain_line_dropWhile hp hws hne) hnl
    have hr : rule_of_line line =
        { mime := String.mk ((line.dropWhile isws).takeWhile word_char),
          command := (words ((line.dropWhile isws).dropWhile word_char)).map String.mk } := by
      simp [rule_of_line, ← words_dropWhile_ws line, hstep.2.1]
    rw [hw]
    simp only [hc, hr]

/-- An empty line at the very start is skipped: the newline under the cursor is consumed
before the first line is parsed. -/
theorem parse_lines_newline {data : List Char} (h : cur data ≠ '\n') :
    parse_lines ('\n' :: data) = parse_lines data := by
  have hd : (if cur data == '\n' then data.tail else data) = data := by simp [h]
  rw [parse_lines_eq, parse_lines_eq data, line_start_newline, hd]

theorem Parse.extend_cons {α : Type} (a : α) (front : List α) (p : Parse (List α)) :
    Parse.extend (a :: front) p = Parse.prepend a (Parse.extend front p) := by
  cases p <;> rfl

theorem Parse.extend_nil {α : Type} (p : Parse (List α)) : Parse.extend [] p = p := by
  cases p <;> rfl

theorem Parse.extend_prepend {α : Type} (a : α) (front : List α) (p : Parse (List α)) :
    Parse.extend front (Parse.prepend a p) = Parse.extend (front ++ [a]) p := by
  cases p <;> simp [Parse.extend, Parse.prepend]

/-- Plain lines in front of any text: their rules, in order, are put in front of what
`parse_lines` returns when entered on the newline that ends the last of them. -/
theorem parse_lines_unlines (lines : List (List Char)) (h : ∀ l ∈ lines, plain_line l)
    (rest : List Char) :
    parse_lines ('\n' :: (unlines lines ++ rest)) =
      Parse.extend (lines.map rule_of_line) (parse_lines ('\n' :: rest)) := by
  induction lines with
  | nil => simp [unlines, Parse.extend_nil]
  | cons l ls ih =>
    have hl := h l (List.mem_cons_self _ _)
    have := ih (fun x hx => h x (List.mem_cons_of_mem _ hx))
    simp only [unlines, List.append_assoc, List.cons_append, List.map_cons]
    rw [parse_lines_line hl, this, Parse.extend_cons]

/-! ## Dispatch -/

theorem set_length_append {α : Type} (l x : List α) (v : α) :
    (l ++ x).set l.length v = l ++ x.set 0 v := by
  induction l with
  | nil => rfl
  | cons a l ih => simp [List.set, ih]

/-- The counting loop of `run_command`: `n` ends one above the number of tokens. -/
theorem count_loop (command : List String) (start : Nat) :
    command.foldl (fun n _ => n + 1) start = start + command.length := by
  induction command generalizing start with
  | nil => rfl
  | cons t ts ih => simp only [List.foldl_cons, ih, List.length_cons]; omega

/-- The filling loop of `run_command`: after the tokens `front`, the tokens still to copy go
into the next free slots and the slots after them stay null. -/
theorem fill_loop (command front : List String) (free : Nat) :
    (command.foldl
      (fun (st : List (Option String) × Nat) str => (st.1.set st.2 (some str), st.2 + 1))
      (front.map some ++ List.replicate (command.length + free) none, front.length)).1 =
      (front ++ command).map some ++ List.replicate free none := by
  induction command generalizing front with
  | nil => simp
  | cons t ts ih =>
    have hlen : (front.map some).length = front.length := List.length_map _ _
    have hset : (front.map some ++ List.replicate ((t :: ts).length + free) none).set
        front.length (some t) =
        (front ++ [t]).map some ++ List.replicate (ts.length + free) none := by
      have := set_length_append (front.map some)
        (List.replicate ((t :: ts).length + free) (none : Option String)) (some t)
      rw [hlen] at this
      rw [this]
      have hrep : List.replicate ((t :: ts).length + free) (none : Option String) =
          none :: List.replicate (ts.length + free) none := by
        rw [List.length_cons, Nat.add_right_comm, List.replicate_succ]
      rw [hrep]
      simp [List.set]
    have := ih (front ++ [t])
    simp only [List.length_append, List.length_singleton, List.append_assoc,
      List.singleton_append] at this
    simp only [List.foldl_cons, hset]
    exact this

/-- Argument vector that `run_command` passes to `execvp` for a command that is not empty. -/
theorem run_command_cons (t : String) (ts : List String) (fname : String) :
    run_command (t :: ts) fname =
      .execvp (some t) ((t :: ts ++ [fname]).map some ++ [none]) := by
  have hn : (t :: ts).foldl (fun n _ => n + 1) 1 = (t :: ts).length + 1 := by
    rw [count_loop]; omega
  have hfill := fill_loop (t :: ts) [] 2
  simp only [List.map_nil, List.nil_append, List.length_nil] at hfill
  have hlen : ((t :: ts).map some).length = (t :: ts).length := List.length_map _ _
  have h1 : (((t :: ts).map some) ++ [none, none]).set (t :: ts).length (some fname) =
      (t :: ts).map some ++ [some fname, none] := by
    have := set_length_append ((t :: ts).map some) [none, none] (some fname)
    rw [hlen] at this
    rw [this]; rfl
  have h2 : (((t :: ts).map some) ++ [some fname, none]).set ((t :: ts).length + 1) none =
      (t :: ts).map some ++ [some fname, none] := by
    have := set_length_append ((t :: ts).map some ++ [some fname]) [none] none
    simp only [List.length_append, hlen, List.length_singleton, List.append_assoc,
      List.singleton_append] at this
    rw [this]; rfl
  show Outcome.execvp _ _ = _
  simp only [hn]
  rw [show (t :: ts).length + 1 + 1 = (t :: ts).length + 2 from rfl, hfill,
    show List.replicate 2 (none : Option String) = [none, none] from rfl,
    show (t :: ts).length + 1 - 1 = (t :: ts).length from rfl, h1, h2]
  simp

/-- Rules that do not match are passed over by the loop. -/
theorem dispatch_loop_append (mime fname : String) (front next : List mime_command)
    (h : ∀ p ∈ front, p.mime ≠ mime) :
    dispatch_loop mime fname (front ++ next) = dispatch_loop mime fname next := by
  induction front with
  | nil => rfl
  | cons p ps ih =>
    have hp : ¬ mime = p.mime := fun e => h p (List.mem_cons_self _ _) e.symm
    simp only [List.cons_append, dispatch_loop, hp, if_false]
    exact ih (fun x hx => h x (List.mem_cons_of_mem _ hx))

theorem run_command_ne_no_rule (command : List String) (fname msg : String) :
    run_command command fname ≠ .exit 1 msg := by
  cases command with
  | nil => simp [run_command]
  | cons t ts => rw [run_command_cons]; exact fun h => by cases h

/-! ## Tables of plain texts -/

/-- Table of a text of plain lines whose first line is not empty: one rule per line, in the
order of the lines. -/
theorem parse_lines_plain_text (lines : List (List Char)) (h : ∀ l ∈ lines, plain_line l)
    (hfirst : lines.head? ≠ some []) :
    parse_lines (unlines lines) = .ok (lines.map rule_of_line) [] := by
  have hcur : cur (unlines lines) ≠ '\n' := by
    cases lines with
    | nil => decide
    | cons l ls =>
      cases l with
      | nil => simp at hfirst
      | cons c cs =>
        simpa [unlines, cur] using ((h (c :: cs) (List.mem_cons_self _ _)).1 c
          (List.mem_cons_self _ _)).1
  have hend : parse_lines ['\n'] = .ok [] [] := by decide
  have := parse_lines_unlines lines h []
  rw [List.append_nil, parse_lines_newline hcur, hend] at this
  rw [this]
  simp [Parse.extend]

theorem dropWhile_ws_ne_nil {line : List Char} (h : ∃ c ∈ line, isws c = false) :
    line.dropWhile isws ≠ [] := by
  intro hnil
  obtain ⟨c, hc, hws⟩ := h
  have := List.dropWhile_eq_nil_iff.mp hnil c hc
  simp [hws] at this

/-- A line with a non-blank character has a first word, which is not empty. -/
theorem words_of_non_blank {line : List Char} (hl : ∀ c ∈ line, c ≠ '\n' ∧ c ≠ '\x00')
    (h : ∃ c ∈ line, isws c = false) : ∃ w ws, w ≠ [] ∧ words line = w :: ws := by
  have hl' : ∀ c ∈ line.dropWhile isws, c ≠ '\n' ∧ c ≠ '\x00' :=
    fun c hc => hl c ((List.dropWhile_suffix isws).subset hc)
  have hstep := words_step hl' (isws_cur_dropWhile line) (dropWhile_ws_ne_nil h)
  exact ⟨_, _, hstep.1, by rw [← words_dropWhile_ws]; exact hstep.2.1⟩

theorem words_of_blank {line : List Char} (h : ∀ c ∈ line, isws c = true) : words line = [] := by
  have := words_append_ws h []
  rwa [List.append_nil, words_nil] at this

theorem string_mk_eq_empty {l : List Char} : String.mk l = "" ↔ l = [] := by
  constructor
  · intro h
    have := congrArg String.data h
    simpa using this
  · intro h; subst h; rfl

/-- The rule of a line has an empty media type exactly when the line is blank. -/
theorem rule_of_line_mime_empty {line : List Char} (hl : ∀ c ∈ line, c ≠ '\n' ∧ c ≠ '\x00') :
    (rule_of_line line).mime = "" ↔ ∀ c ∈ line, isws c = true := by
  constructor
  · intro h
    by_contra hne
    have hex : ∃ c ∈ line, isws c = false := by
      by_contra hno
      apply hne
      intro c hc
      by_contra hws
      exact hno ⟨c, hc, by simpa using hws⟩
    obtain ⟨w, ws, hw, heq⟩ := words_of_non_blank hl hex
    simp only [rule_of_line, heq, List.headD_cons] at h
    exact hw (string_mk_eq_empty.mp h)
  · intro h
    simp [rule_of_line, words_of_blank h]

theorem plain_line_of_blank {line : List Char} (h : ∀ c ∈ line, isws c = true) :
    plain_line line := by
  refine ⟨fun c hc => ?_, fun w hw => ?_⟩
  · have := h c hc
    constructor <;> (intro e; subst e; simp [isws] at this)
  · rw [words_of_blank h] at hw; cases hw

theorem rule_of_blank_line {line : List Char} (h : ∀ c ∈ line, isws c = true) :
    rule_of_line line = { mime := "", command := [] } := by
  simp [rule_of_line, words_of_blank h]

/-! ## Shape of a successful parse -/

/-- A successful `parse_lines` either stops at the NUL with an empty table, or has parsed a
media type and a command and got the rest of the table from a cursor further on. -/
theorem parse_lines_ok_inv {data rest : List Char} {table : List mime_command}
    (h : parse_lines data = .ok table rest) :
    (table = [] ∧ rest = (if cur data == '\n' then data.tail else data) ∧
        (cur rest == '\x00') = true) ∨
      ∃ mime command next r1 r2,
        table = { mime := mime, command := command } :: next ∧
        parse_word (parse_skip_ws (if cur data == '\n' then data.tail else data)) = .ok mime r1 ∧
        parse_command (parse_skip_ws r1) = .ok command r2 ∧
        parse_lines r2 = .ok next rest ∧ r2.length < data.length := by
  rw [parse_lines_eq] at h
  by_cases h0 : (cur (if cur data == '\n' then data.tail else data) == '\x00') = true
  · simp only [h0, if_true] at h
    injection h with ht hr
    left
    exact ⟨ht.symm, hr.symm, by rw [← hr]; exact h0⟩
  · simp only [h0, if_false] at h
    right
    cases hw : parse_word (parse_skip_ws (if cur data == '\n' then data.tail else data)) with
    | unexpected c => rw [hw] at h; cases h
    | fuel => rw [hw] at h; cases h
    | ok mime r1 =>
      rw [hw] at h
      simp only [] at h
      cases hc : parse_command (parse_skip_ws r1) with
      | unexpected c => rw [hc] at h; cases h
      | fuel => rw [hc] at h; cases h
      | ok command r2 =>
        rw [hc] at h
        simp only [] at h
        have hlt := parse_lines_progress (by simpa using h0) hw hc
        cases hn : parse_lines r2 with
        | unexpected c => rw [hn] at h; cases h
        | fuel => rw [hn] at h; cases h
        | ok next rest2 =>
          rw [hn] at h
          simp only [Parse.prepend] at h
          injection h with ht hr
          exact ⟨mime, command, next, r1, r2, ht.symm, rfl, hc, by rw [hn, hr], hlt⟩

/-- A media type that is empty comes from a cursor on the end of the line, where the command
is empty too. -/
theorem command_of_empty_mime {data r1 r2 : List Char} {command : List String}
    (hw : parse_word (parse_skip_ws data) = .ok "" r1)
    (hc : parse_command (parse_skip_ws r1) = .ok command r2) : command = [] := by
  have hws := isws_cur_parse_skip_ws data
  by_cases h1 : cur (parse_skip_ws data) = '"'
  · rw [parse_word_quote (Or.inl h1)] at hw; cases hw
  · by_cases h2 : cur (parse_skip_ws data) = Char.ofNat 39
    · rw [parse_word_quote (Or.inr h2)] at hw; cases hw
    · rw [parse_word_unquoted h1 h2] at hw
      injection hw with hm hr
      have htake := string_mk_eq_empty.mp hm
      have hdrop : (parse_skip_ws data).dropWhile word_char = parse_skip_ws data := by
        have := List.takeWhile_append_dropWhile word_char (parse_skip_ws data)
        rw [htake, List.nil_append] at this
        exact this
      have hwc : word_char (cur (parse_skip_ws data)) = false := by
        have := word_char_cur_dropWhile (parse_skip_ws data)
        rwa [hdrop] at this
      have hend : (cur (parse_skip_ws data) == '\n' || cur (parse_skip_ws data) == '\x00') = true := by
        by_contra hno
        have := word_char_of_not_end hws (by simpa using hno)
        rw [hwc] at this; cases this
      rw [← hr, hdrop, parse_command_skip_ws, parse_command_eq, parse_skip_ws_idem, if_pos hend] at hc
      injection hc with hc _
      exact hc.symm

/-- In every table that `parse_lines` returns, a rule with an empty media type has an empty
command. -/
theorem empty_mime_empty_command (n : Nat) :
    ∀ (data rest : List Char) (table : List mime_command), data.length ≤ n →
      parse_lines data = .ok table rest → ∀ r ∈ table, r.mime = "" → r.command = [] := by
  induction n with
  | zero =>
    intro data rest table hn h r hr
    have hd : data = [] := List.length_eq_zero.mp (Nat.le_zero.mp hn)
    subst hd
    have h0 : parse_lines [] = .ok [] [] := by decide
    rw [h0] at h
    injection h with ht _
    rw [← ht] at hr; cases hr
  | succ n ih =>
    intro data rest table hn h r hr hm
    rcases parse_lines_ok_inv h with ⟨ht, _, _⟩ | ⟨mime, command, next, r1, r2, ht, hw, hc, hnext, hlt⟩
    · rw [ht] at hr; cases hr
    · rw [ht] at hr
      rcases List.mem_cons.mp hr with hr | hr
      · subst hr
        simp only at hm
        subst hm
        exact command_of_empty_mime hw hc
      · exact ih r2 rest next (by omega) hnext r hr hm

/-! ## Dispatch claims -/

/-- C1. First match wins: when no rule of `front` has the classified media type and `rule`
has it, the loop of `main` over `front ++ rule :: next` hands the command of `rule` to
`run_command`, whatever rules follow in `next`. -/
theorem dispatch_first_match_wins (mime fname : String) (front next : List mime_command)
    (rule : mime_command) (hfront : ∀ p ∈ front, p.mime ≠ mime) (hrule : rule.mime = mime) :
    dispatch_loop mime fname (front ++ rule :: next) = run_command rule.command fname := by
  rw [dispatch_loop_append mime fname front _ hfront]
  simp [dispatch_loop, hrule]

/-- C1, both orders of the two `text/plain` rules: the first one in the table is run, `cat`
in one order and `less` in the other. -/
theorem dispatch_first_match_wins_witness :
    (dispatch_loop "text/plain" "f.txt"
        [{ mime := "text/plain", command := ["cat"] },
         { mime := "text/plain", command := ["less"] }] = run_command ["cat"] "f.txt" ∧
      run_command ["cat"] "f.txt" = .execvp (some "cat") [some "cat", some "f.txt", none]) ∧
    (dispatch_loop "text/plain" "f.txt"
        [{ mime := "text/plain", command := ["less"] },
         { mime := "text/plain", command := ["cat"] }] = run_command ["less"] "f.txt" ∧
      run_command ["less"] "f.txt" = .execvp (some "less") [some "less", some "f.txt", none]) :=
  ⟨⟨dispatch_first_match_wins "text/plain" "f.txt" []
      [{ mime := "text/plain", command := ["less"] }]
      { mime := "text/plain", command := ["cat"] } (by simp) rfl, by decide⟩,
    ⟨dispatch_first_match_wins "text/plain" "f.txt" []
      [{ mime := "text/plain", command := ["cat"] }]
      { mime := "text/plain", command := ["less"] } (by simp) rfl, by decide⟩⟩

/-- C2. Argument vector: for the command template `t :: ts` and the file path `fname`,
`run_command` calls `execvp` with the program name `t` and the array that holds the tokens
of the template in order, then `fname`, then the null slot; the tokens and the file path make
`ts.length + 2` entries.  The template `echo hi` and the path `f.txt` give `echo hi f.txt`. -/
theorem run_command_argv (t : String) (ts : List String) (fname : String) :
    run_command (t :: ts) fname =
        .execvp (some t) ((t :: ts ++ [fname]).map some ++ [none]) ∧
      (t :: ts ++ [fname]).length = ts.length + 2 ∧
      run_command ["echo", "hi"] "f.txt" =
        .execvp (some "echo") [some "echo", some "hi", some "f.txt", none] :=
  ⟨run_command_cons t ts fname, by simp, by decide⟩

/-- C3. Explicit no-op rule: when the first rule that has the classified media type has an
empty command, the process exits with status 0 and `execvp` is not called, whatever rules
follow. -/
theorem dispatch_empty_command (mime fname : String) (front next : List mime_command)
    (rule : mime_command) (hfront : ∀ p ∈ front, p.mime ≠ mime) (hrule : rule.mime = mime)
    (hcommand : rule.command = []) :
    dispatch_loop mime fname (front ++ rule :: next) = .exit 0 "" := by
  rw [dispatch_loop_append mime fname front _ hfront]
  simp [dispatch_loop, hrule, hcommand, run_command]

/-- C3 on a table where a rule with a command follows the no-op rule. -/
theorem dispatch_empty_command_witness :
    dispatch_loop "text/plain" "f.txt"
      ([{ mime := "image/png", command := ["feh"] }] ++
        { mime := "text/plain", command := [] } ::
        [{ mime := "text/plain", command := ["less"] }]) = .exit 0 "" :=
  dispatch_empty_command "text/plain" "f.txt" [{ mime := "image/png", command := ["feh"] }]
    [{ mime := "text/plain", command := ["less"] }] { mime := "text/plain", command := [] }
    (by decide) rfl rfl

/-- C4. No matching rule: the loop of `main` ends with the message
`mime-run: No appropriate mime rule found` and status 1, without any `execvp`, exactly when
no rule of the table has the classified media type. -/
theorem dispatch_no_matching_rule (mime fname : String) (rules : List mime_command) :
    dispatch_loop mime fname rules = .exit 1 "mime-run: No appropriate mime rule found\n" ↔
      ∀ r ∈ rules, r.mime ≠ mime := by
  induction rules with
  | nil => simp [dispatch_loop]
  | cons r rs ih =>
    by_cases hr : mime = r.mime
    · simp only [dispatch_loop, hr, if_true, List.mem_cons, forall_eq_or_imp, ne_eq,
        not_true_eq_false, false_and, iff_false]
      exact run_command_ne_no_rule _ _ _
    · have hr' : ¬ r.mime = mime := fun e => hr e.symm
      simp only [dispatch_loop, hr, if_false, List.mem_cons, forall_eq_or_imp, ne_eq, hr',
        not_false_eq_true, true_and]
      exact ih

/-- C4 on the empty table and on a table without a rule for `application/x-foo`. -/
theorem dispatch_no_matching_rule_witness :
    dispatch_loop "application/x-foo" "f.bin" [] =
        .exit 1 "mime-run: No appropriate mime rule found\n" ∧
      dispatch_loop "application/x-foo" "f.bin"
        [{ mime := "text/plain", command := ["cat"] }, { mime := "image/png", command := [] }] =
        .exit 1 "mime-run: No appropriate mime rule found\n" :=
  ⟨(dispatch_no_matching_rule "application/x-foo" "f.bin" []).mpr (by decide),
    (dispatch_no_matching_rule "application/x-foo" "f.bin" _).mpr (by decide)⟩

/-! ## Parser claims -/

/-- C5, the code at the failing input: a command line that begins with a quoted word stops
the program with the syntax error on the opening quote, for the double quote and for the
single quote, also inside a configuration line. -/
theorem quoted_word_rejected :
    parse_command "\"a b\" c".toList = .unexpected '"' ∧
      parse_command "'a b' c".toList = .unexpected (Char.ofNat 39) ∧
      parse_lines "text/plain \"a b\" c\n".toList = .unexpected '"' := by
  decide

/-- C6, the code at the failing input: a word that opens a quote and never closes it stops
the program with the syntax error on the opening quote, at the end of the input and before a
newline. -/
theorem unterminated_quote_rejected :
    parse_word "\"abc".toList = .unexpected '"' ∧
      parse_word "\"abc\nx".toList = .unexpected '"' ∧
      parse_word "'abc".toList = .unexpected (Char.ofNat 39) := by
  decide

/-- C7 fails on the code: the bare word `abc,def` is returned whole, and no syntax error on
the comma is raised. -/
theorem bare_word_comma_accepted :
    parse_word "abc,def".toList = .ok "abc,def" [] ∧
      parse_word "abc,def".toList ≠ .unexpected ',' := by
  decide

/-- C7 as amended: on an input that does not start with a quote character, `parse_word`
raises no syntax error; it returns the characters before the first space, tab, newline or NUL
and leaves the cursor on that character, so a bare word is never followed by anything else. -/
theorem bare_word_never_rejected (data : List Char) (h1 : cur data ≠ '"')
    (h2 : cur data ≠ Char.ofNat 39) :
    parse_word data = .ok (String.mk (data.takeWhile word_char)) (data.dropWhile word_char) ∧
      (cur (data.dropWhile word_char) = '\x00' ∨ cur (data.dropWhile word_char) = '\n' ∨
        isws (cur (data.dropWhile word_char)) = true) := by
  refine ⟨parse_word_unquoted h1 h2, ?_⟩
  have hend := word_char_cur_dropWhile data
  simp only [word_char, Bool.and_eq_false_imp, Bool.and_eq_true, bne_iff_ne, ne_eq,
    Bool.not_eq_false'] at hend
  by_cases a : cur (data.dropWhile word_char) = '\x00'
  · exact Or.inl a
  · by_cases b : cur (data.dropWhile word_char) = '\n'
    · exact Or.inr (Or.inl b)
    · exact Or.inr (Or.inr (hend ⟨a, b⟩))

/-- C7 as amended, on `abc,def` and on `abc def`. -/
theorem bare_word_never_rejected_witness :
    (cur "abc,def".toList ≠ '"' ∧ cur "abc,def".toList ≠ Char.ofNat 39) ∧
      parse_word "abc,def".toList = .ok "abc,def" [] ∧
      parse_word "abc def".toList = .ok "abc" " def".toList :=
  ⟨by decide,
    (bare_word_never_rejected "abc,def".toList (by decide) (by decide)).1.trans (by decide),
    (bare_word_never_rejected "abc def".toList (by decide) (by decide)).1.trans (by decide)⟩

/-- C8. Rule count and order: for a text of `n` lines, each ended by a newline, each a plain
line (no word starts with a quote) with a non-blank character, `parse_lines` returns a table
of `n` rules and stops at the end of the text; rule `i` has the first word of line `i` as
media type and the other words of line `i`, in order, as command. -/
theorem rule_count_and_order (lines : List (List Char))
    (h : ∀ l ∈ lines, plain_line l ∧ ∃ c ∈ l, isws c = false) :
    ∃ table, parse_lines (unlines lines) = .ok table [] ∧ table.length = lines.length ∧
      ∀ (i : Nat) (hi : i < lines.length), ∃ w ws, words (lines.get ⟨i, hi⟩) = w :: ws ∧
        table[i]? = some { mime := String.mk w, command := ws.map String.mk } := by
  have hfirst : lines.head? ≠ some [] := by
    cases lines with
    | nil => simp
    | cons l ls =>
      intro e
      simp only [List.head?_cons, Option.some.injEq] at e
      obtain ⟨c, hc, _⟩ := (h l (List.mem_cons_self _ _)).2
      rw [e] at hc; cases hc
  refine ⟨lines.map rule_of_line, parse_lines_plain_text lines (fun l hl => (h l hl).1) hfirst,
    List.length_map _ _, fun i hi => ?_⟩
  have hmem : lines.get ⟨i, hi⟩ ∈ lines := List.get_mem _ _ _
  obtain ⟨w, ws, _, hw⟩ := words_of_non_blank (h _ hmem).1.1 (h _ hmem).2
  refine ⟨w, ws, hw, ?_⟩
  rw [List.getElem?_map, List.getElem?_eq_getElem hi]
  simp only [Option.map_some', Option.some.injEq]
  show rule_of_line (lines.get ⟨i, hi⟩) = _
  rw [rule_of_line, hw]
  rfl

/-- C8 on three lines, two of them with the same media type. -/
theorem rule_count_and_order_witness :
    (∀ l ∈ ["text/plain cat".toList, " text/plain\tless -R ".toList, "image/png".toList],
        plain_line l ∧ ∃ c ∈ l, isws c = false) ∧
      parse_lines "text/plain cat\n text/plain\tless -R \nimage/png\n".toList =
        .ok [{ mime := "text/plain", command := ["cat"] },
             { mime := "text/plain", command := ["less", "-R"] },
             { mime := "image/png", command := [] }] [] ∧
      ∃ table,
        parse_lines (unlines
          ["text/plain cat".toList, " text/plain\tless -R ".toList, "image/png".toList]) =
          .ok table [] ∧
        table.length = 3 :=
  ⟨by decide, by decide,
    (rule_count_and_order
      ["text/plain cat".toList, " text/plain\tless -R ".toList, "image/png".toList]
      (by decide)).imp (fun _ ht => ⟨ht.1, ht.2.1⟩)⟩

/-- C9 fails on the code: the text made of one line that holds a single space parses into a
table whose only rule has an empty media type. -/
theorem blank_line_gives_empty_mime :
    parse_lines " \n".toList = .ok [{ mime := "", command := [] }] [] := by
  decide

/-- C9 as amended: in every table that `parse_lines` returns, a rule has a non-empty media
type unless its command is empty; and in a text of plain lines (the first of them not empty)
no line is skipped, the rule of a line having an empty media type exactly when the line is
empty or holds only spaces and tabs. -/
theorem empty_mime_only_for_blank_line :
    (∀ (data rest : List Char) (table : List mime_command),
        parse_lines data = .ok table rest → ∀ r ∈ table, r.command ≠ [] → r.mime ≠ "") ∧
      ∀ lines : List (List Char), (∀ l ∈ lines, plain_line l) → lines.head? ≠ some [] →
        parse_lines (unlines lines) = .ok (lines.map rule_of_line) [] ∧
          ∀ l ∈ lines, ((rule_of_line l).mime = "" ↔ ∀ c ∈ l, isws c = true) :=
  ⟨fun data rest table h r hr hc hm =>
      hc (empty_mime_empty_command _ data rest table (Nat.le_refl _) h r hr hm),
    fun lines h hfirst =>
      ⟨parse_lines_plain_text lines h hfirst, fun l hl => rule_of_line_mime_empty (h l hl).1⟩⟩

/-- C9 as amended, on a text with a rule, a line of blanks, an empty line and a last rule. -/
theorem empty_mime_only_for_blank_line_witness :
    (∀ r ∈ [({ mime := "a", command := ["b"] } : mime_command), { mime := "", command := [] }],
        r.command ≠ [] → r.mime ≠ "") ∧
      parse_lines (unlines ["a b".toList, " \t".toList, [], "c".toList]) =
        .ok [{ mime := "a", command := ["b"] }, { mime := "", command := [] },
             { mime := "", command := [] }, { mime := "c", command := [] }] [] :=
  ⟨empty_mime_only_for_blank_line.1 "a b\n \n".toList [] _ (by decide),
    (empty_mime_only_for_blank_line.2 ["a b".toList, " \t".toList, [], "c".toList]
      (by decide) (by decide)).1.trans (by decide)⟩

/-- C10. Blank-line rule: a line of one or more spaces and tabs ended by a newline, at the
start of the text or after the newline of the line before, puts the rule with an empty media
type and an empty command in front of the table of what follows, and so does an empty line
after the newline of the line before (in particular after any plain lines that start the
text); one empty line at the very start of the text is skipped without a rule. -/
theorem blank_line_rule :
    (∀ ws rest : List Char, ws ≠ [] → (∀ c ∈ ws, isws c = true) →
        parse_lines (ws ++ '\n' :: rest) =
          Parse.prepend { mime := "", command := [] } (parse_lines ('\n' :: rest)) ∧
        parse_lines ('\n' :: (ws ++ '\n' :: rest)) =
          Parse.prepend { mime := "", command := [] } (parse_lines ('\n' :: rest))) ∧
      (∀ rest : List Char,
        parse_lines ('\n' :: '\n' :: rest) =
          Parse.prepend { mime := "", command := [] } (parse_lines ('\n' :: rest))) ∧
      (∀ rest : List Char, cur rest ≠ '\n' → parse_lines ('\n' :: rest) = parse_lines rest) ∧
      ∀ (lines : List (List Char)) (rest : List Char), (∀ l ∈ lines, plain_line l) →
        lines ≠ [] → lines.head? ≠ some [] →
        parse_lines (unlines lines ++ '\n' :: rest) =
          Parse.extend (lines.map rule_of_line ++ [{ mime := "", command := [] }])
            (parse_lines ('\n' :: rest)) := by
  have hempty : ∀ rest : List Char, parse_lines ('\n' :: '\n' :: rest) =
      Parse.prepend { mime := "", command := [] } (parse_lines ('\n' :: rest)) := by
    intro rest
    have hline := @parse_lines_line [] (plain_line_of_blank (by simp)) rest
    rw [rule_of_blank_line (by simp)] at hline
    exact hline
  refine ⟨fun ws rest hne hws => ?_, hempty, fun rest h => parse_lines_newline h,
    fun lines rest h hne hfirst => ?_⟩
  · have hline := parse_lines_line (plain_line_of_blank hws) rest
    rw [rule_of_blank_line hws] at hline
    refine ⟨?_, hline⟩
    have hcur : cur (ws ++ '\n' :: rest) ≠ '\n' := by
      cases ws with
      | nil => exact absurd rfl hne
      | cons c cs =>
        have := hws c (List.mem_cons_self _ _)
        intro e
        simp only [List.cons_append, cur] at e
        subst e
        simp [isws] at this
    rw [← parse_lines_newline hcur]
    exact hline
  · have hcur : cur (unlines lines ++ '\n' :: rest) ≠ '\n' := by
      cases lines with
      | nil => exact absurd rfl hne
      | cons l ls =>
        cases l with
        | nil => simp at hfirst
        | cons c cs =>
          simpa [unlines, cur] using ((h (c :: cs) (List.mem_cons_self _ _)).1 c
            (List.mem_cons_self _ _)).1
    rw [← parse_lines_newline hcur, parse_lines_unlines lines h, hempty, Parse.extend_prepend]

/-- C10 on a line of blanks at the start, on an empty line after a rule and on an empty line
at the start of the text. -/
theorem blank_line_rule_witness :
    parse_lines " \t\nx y\n".toList =
        Parse.prepend { mime := "", command := [] } (parse_lines "\nx y\n".toList) ∧
      parse_lines " \t\nx y\n".toList =
        .ok [{ mime := "", command := [] }, { mime := "x", command := ["y"] }] [] ∧
      parse_lines "a\n\nb\n".toList =
        .ok [{ mime := "a", command := [] }, { mime := "", command := [] },
             { mime := "b", command := [] }] [] ∧
      parse_lines "\n\nb\n".toList =
        Parse.prepend { mime := "", command := [] } (parse_lines "\nb\n".toList) ∧
      (cur "a\n".toList ≠ '\n' ∧ parse_lines "\na\n".toList = parse_lines "a\n".toList) ∧
      parse_lines "\na\n".toList = .ok [{ mime := "a", command := [] }] [] ∧
      parse_lines (unlines ["a b".toList] ++ '\n' :: "c\n".toList) =
        .ok [{ mime := "a", command := ["b"] }, { mime := "", command := [] },
             { mime := "c", command := [] }] [] :=
  ⟨(blank_line_rule.1 " \t".toList "x y\n".toList (by decide) (by decide)).1,
    by decide, by decide,
    blank_line_rule.2.1 "b\n".toList,
    ⟨by decide, blank_line_rule.2.2.1 "a\n".toList (by decide)⟩,
    by decide,
    (blank_line_rule.2.2.2 ["a b".toList] "c\n".toList (by decide) (by decide)
      (by decide)).trans (by decide)⟩

/-! ## Words and commands on any input -/

theorem word_char_iff (c : Char) :
    word_char c = true ↔ c ≠ ' ' ∧ c ≠ '\t' ∧ c ≠ '\n' ∧ c ≠ '\x00' := by
  simp only [word_char, isws, Bool.and_eq_true, bne_iff_ne, ne_eq, Bool.not_eq_true',
    Bool.or_eq_false_iff, beq_eq_false_iff_ne]
  tauto

theorem line_char_cur_dropWhile (data : List Char) :
    (cur (data.dropWhile line_char) == '\n' || cur (data.dropWhile line_char) == '\x00') = true := by
  induction data with
  | nil => decide
  | cons c cs ih =>
    by_cases h : line_char c = true
    · simpa [List.dropWhile_cons, h] using ih
    · simp only [List.dropWhile_cons, h, Bool.false_eq_true, if_false, cur]
      simp only [line_char, Bool.and_eq_true, bne_iff_ne, ne_eq, not_and_or, not_not] at h
      rcases h with h | h <;> simp [h]

theorem line_char_takeWhile (data : List Char) :
    ∀ c ∈ data.takeWhile line_char, c ≠ '\n' ∧ c ≠ '\x00' := by
  intro c hc
  have := List.mem_takeWhile_imp hc
  simpa [line_char] using this

/-- C11. Unquoted word extraction: on an input whose first character is not a quote,
`parse_word` returns the longest prefix `w` without space, tab, newline and NUL (all its
characters are such, and the character after it is one of the four or the end), and the
cursor has moved by the length of `w`. -/
theorem unquoted_word_extraction (data : List Char) (h1 : cur data ≠ '"')
    (h2 : cur data ≠ Char.ofNat 39) :
    ∃ w rest, parse_word data = .ok (String.mk w) rest ∧ data = w ++ rest ∧
      (∀ c ∈ w, c ≠ ' ' ∧ c ≠ '\t' ∧ c ≠ '\n' ∧ c ≠ '\x00') ∧
      (cur rest = ' ' ∨ cur rest = '\t' ∨ cur rest = '\n' ∨ cur rest = '\x00') ∧
      rest = data.drop w.length := by
  refine ⟨data.takeWhile word_char, data.dropWhile word_char, parse_word_unquoted h1 h2,
    (List.takeWhile_append_dropWhile _ _).symm,
    fun c hc => (word_char_iff c).mp (List.mem_takeWhile_imp hc), ?_, ?_⟩
  · have hend := word_char_cur_dropWhile data
    by_contra hno
    simp only [not_or] at hno
    have := (word_char_iff _).mpr ⟨hno.1, hno.2.1, hno.2.2.1, hno.2.2.2⟩
    rw [hend] at this; cases this
  · have h := List.takeWhile_append_dropWhile word_char data
    have hd : (data.takeWhile word_char ++ data.dropWhile word_char).drop
        (data.takeWhile word_char).length = data.dropWhile word_char := List.drop_left _ _
    rw [h] at hd
    exact hd.symm

/-- C11 on a word followed by a tab, on a word that ends the input and on an input that
starts with a space, where the word is empty. -/
theorem unquoted_word_extraction_witness :
    (cur "text/plain\tcat".toList ≠ '"' ∧ cur "text/plain\tcat".toList ≠ Char.ofNat 39) ∧
      (∃ w rest, parse_word "text/plain\tcat".toList = .ok (String.mk w) rest ∧
        "text/plain\tcat".toList = w ++ rest ∧
        (∀ c ∈ w, c ≠ ' ' ∧ c ≠ '\t' ∧ c ≠ '\n' ∧ c ≠ '\x00') ∧
        (cur rest = ' ' ∨ cur rest = '\t' ∨ cur rest = '\n' ∨ cur rest = '\x00') ∧
        rest = "text/plain\tcat".toList.drop w.length) ∧
      parse_word "text/plain\tcat".toList = .ok "text/plain" "\tcat".toList ∧
      parse_word "cat".toList = .ok "cat" [] ∧
      parse_word " cat".toList = .ok "" " cat".toList :=
  ⟨by decide, unquoted_word_extraction "text/plain\tcat".toList (by decide) (by decide),
    by decide, by decide, by decide⟩

/-- C12. Command parsing is whitespace splitting of the rest of the line: when no word before
the first newline or NUL starts with a quote, `parse_command` returns the words of that part
of the input, in order, and leaves the cursor on the newline or NUL that ends it. -/
theorem parse_command_splits_line (data : List Char)
    (h : ∀ w ∈ words (data.takeWhile line_char), cur w ≠ '"' ∧ cur w ≠ Char.ofNat 39) :
    parse_command data =
        .ok ((words (data.takeWhile line_char)).map String.mk) (data.dropWhile line_char) ∧
      (cur (data.dropWhile line_char) = '\n' ∨ cur (data.dropWhile line_char) = '\x00') := by
  have hend := line_char_cur_dropWhile data
  have hp : plain_line (data.takeWhile line_char) := ⟨line_char_takeWhile data, h⟩
  have := parse_command_plain _ _ _ (Nat.le_refl _) hp hend
  rw [List.takeWhile_append_dropWhile] at this
  refine ⟨this, ?_⟩
  simpa using hend

/-- C12 on a command with blanks around its words, followed by another line, and on an input
with blanks only before the end. -/
theorem parse_command_splits_line_witness :
    (∀ w ∈ words ("  less\t-R  \nnext line".toList.takeWhile line_char),
        cur w ≠ '"' ∧ cur w ≠ Char.ofNat 39) ∧
      parse_command "  less\t-R  \nnext line".toList = .ok ["less", "-R"] "\nnext line".toList ∧
      parse_command " \t ".toList = .ok [] [] :=
  ⟨by decide,
    (parse_command_splits_line "  less\t-R  \nnext line".toList (by decide)).1.trans (by decide),
    (parse_command_splits_line " \t ".toList (by decide)).1.trans (by decide)⟩

/-! ## Shape of the tokens -/

/-- A token that `parse_word` returns has the shape of a token, and it is not empty when the
cursor was on a word character. -/
theorem parse_word_ok_token {data rest : List Char} {t : String}
    (h : parse_word data = .ok t rest) :
    token_ok t ∧ (word_char (cur data) = true → t ≠ "") := by
  by_cases h1 : cur data = '"'
  · rw [parse_word_quote (Or.inl h1)] at h; cases h
  · by_cases h2 : cur data = Char.ofNat 39
    · rw [parse_word_quote (Or.inr h2)] at h; cases h
    · rw [parse_word_unquoted h1 h2] at h
      injection h with ht _
      subst ht
      have hcur : cur (data.takeWhile word_char) = cur data ∨
          cur (data.takeWhile word_char) = '\x00' := by
        cases data with
        | nil => right; rfl
        | cons c cs =>
          by_cases hc : word_char c = true
          · left; simp [List.takeWhile_cons, hc, cur]
          · right; simp [List.takeWhile_cons, hc, cur]
      refine ⟨⟨fun c hc => (word_char_iff c).mp (List.mem_takeWhile_imp hc), ?_, ?_⟩, ?_⟩
      · rcases hcur with e | e <;> simp only [e]
        · exact h1
        · decide
      · rcases hcur with e | e <;> simp only [e]
        · exact h2
        · decide
      · intro hw hemp
        have hnil := string_mk_eq_empty.mp hemp
        cases data with
        | nil => simp [cur, word_char] at hw
        | cons c cs =>
          simp only [cur] at hw
          simp [List.takeWhile_cons, hw] at hnil

theorem parse_command_ok_tokens (n : Nat) :
    ∀ (data rest : List Char) (v : List String), data.length ≤ n →
      parse_command data = .ok v rest → ∀ t ∈ v, token_ok t ∧ t ≠ "" := by
  induction n with
  | zero =>
    intro data rest v hn h t ht
    have hd : data = [] := List.length_eq_zero.mp (Nat.le_zero.mp hn)
    subst hd
    have h0 : parse_command [] = .ok [] [] := by decide
    rw [h0] at h
    injection h with hv _
    rw [← hv] at ht; cases ht
  | succ n ih =>
    intro data rest v hn h t ht
    rw [parse_command_eq] at h
    have hle := parse_skip_ws_length_le data
    by_cases hend : (cur (parse_skip_ws data) == '\n' || cur (parse_skip_ws data) == '\x00') = true
    · simp only [hend, if_true] at h
      injection h with hv _
      rw [← hv] at ht; cases ht
    · simp only [hend, if_false] at h
      have hwc := word_char_of_not_end (isws_cur_parse_skip_ws data) (by simpa using hend)
      cases hw : parse_word (parse_skip_ws data) with
      | unexpected c => rw [hw] at h; cases h
      | fuel => rw [hw] at h; cases h
      | ok str r =>
        rw [hw] at h
        simp only [] at h
        have hlt := parse_word_ok_length_lt hw hwc
        cases hc : parse_command r with
        | unexpected c => rw [hc] at h; cases h
        | fuel => rw [hc] at h; cases h
        | ok next r2 =>
          rw [hc] at h
          simp only [Parse.prepend] at h
          injection h with hv _
          rw [← hv] at ht
          rcases List.mem_cons.mp ht with e | e
          · subst e
            have := parse_word_ok_token hw
            exact ⟨this.1, this.2 hwc⟩
          · exact ih r r2 next (by omega) hc t e

theorem parse_lines_ok_tokens (n : Nat) :
    ∀ (data rest : List Char) (table : List mime_command), data.length ≤ n →
      parse_lines data = .ok table rest →
      ∀ r ∈ table, token_ok r.mime ∧ ∀ t ∈ r.command, token_ok t ∧ t ≠ "" := by
  induction n with
  | zero =>
    intro data rest table hn h r hr
    have hd : data = [] := List.length_eq_zero.mp (Nat.le_zero.mp hn)
    subst hd
    have h0 : parse_lines [] = .ok [] [] := by decide
    rw [h0] at h
    injection h with ht _
    rw [← ht] at hr; cases hr
  | succ n ih =>
    intro data rest table hn h r hr
    rcases parse_lines_ok_inv h with ⟨ht, _, _⟩ | ⟨mime, command, next, r1, r2, ht, hw, hc, hnext, hlt⟩
    · rw [ht] at hr; cases hr
    · rw [ht] at hr
      rcases List.mem_cons.mp hr with e | e
      · subst e
        exact ⟨(parse_word_ok_token hw).1,
          parse_command_ok_tokens _ _ _ _ (Nat.le_refl _) hc⟩
      · exact ih r2 rest next (by omega) hnext r e

/-- C17. Token shape: in every table that `parse_lines` returns, every media type and every
command word holds no space, tab, newline or NUL and does not start with a quote, and every
command word is non-empty; only a media type can be the empty token. -/
theorem token_shape (data rest : List Char) (table : List mime_command)
    (h : parse_lines data = .ok table rest) :
    ∀ r ∈ table, token_ok r.mime ∧ ∀ t ∈ r.command, token_ok t ∧ t ≠ "" :=
  parse_lines_ok_tokens _ data rest table (Nat.le_refl _) h

/-- C17 on a text with a rule, a blank line (the empty media type) and a rule whose words
hold quotes and commas inside. -/
theorem token_shape_witness :
    parse_lines "text/plain less -R\n \nimage/png a\"b c,d".toList =
        .ok [{ mime := "text/plain", command := ["less", "-R"] },
             { mime := "", command := [] },
             { mime := "image/png", command := ["a\"b", "c,d"] }] [] ∧
      ∀ r ∈ [({ mime := "text/plain", command := ["less", "-R"] } : mime_command),
             { mime := "", command := [] },
             { mime := "image/png", command := ["a\"b", "c,d"] }],
        token_ok r.mime ∧ ∀ t ∈ r.command, token_ok t ∧ t ≠ "" :=
  ⟨by decide,
    token_shape "text/plain less -R\n \nimage/png a\"b c,d".toList [] _ (by decide)⟩

/-! ## Lines with and without quoted words -/

theorem cur_takeWhile_word_char {line : List Char} (hl : ∀ c ∈ line, c ≠ '\n' ∧ c ≠ '\x00')
    (hc : isws (cur line) = false) (hne : line ≠ []) (data : List Char) :
    cur (line ++ data) = cur (line.takeWhile word_char) := by
  cases line with
  | nil => exact absurd rfl hne
  | cons c cs =>
    simp only [cur] at hc
    have hc0 := hl c (List.mem_cons_self _ _)
    have hwc : word_char c = true := by simp [word_char, hc, hc0.1, hc0.2]
    simp [cur, List.takeWhile_cons, hwc]

theorem quoted_iff (w : List Char) :
    quoted w = false ↔ cur w ≠ '"' ∧ cur w ≠ Char.ofNat 39 := by
  simp [quoted]

/-- On a line, `parse_word` at a word that does not start with a quote returns it. -/
theorem parse_word_line {line : List Char} (hl : ∀ c ∈ line, c ≠ '\n' ∧ c ≠ '\x00')
    (hc : isws (cur line) = false) (hne : line ≠ [])
    (hq : quoted (line.takeWhile word_char) = false) (data : List Char)
    (hd : word_char (cur data) = false) :
    parse_word (line ++ data) =
      .ok (String.mk (line.takeWhile word_char)) (line.dropWhile word_char ++ data) := by
  have hq' := (quoted_iff _).mp hq
  have hcur := cur_takeWhile_word_char hl hc hne data
  have hrest : word_char (cur (line.dropWhile word_char ++ data)) = false := by
    cases hr : line.dropWhile word_char with
    | nil => simpa using hd
    | cons c cs =>
      have := word_char_cur_dropWhile line
      rw [hr] at this
      simpa [cur] using this
  have happ := @word_char_takeWhile_append (line.takeWhile word_char)
    (line.dropWhile word_char ++ data) (fun c hx => List.mem_takeWhile_imp hx) hrest
  rw [← List.append_assoc, List.takeWhile_append_dropWhile] at happ
  rw [parse_word_unquoted (by rw [hcur]; exact hq'.1) (by rw [hcur]; exact hq'.2), happ.1, happ.2]

/-- On a line, `parse_word` at a word that starts with a quote stops the program. -/
theorem parse_word_line_quoted {line : List Char} (hl : ∀ c ∈ line, c ≠ '\n' ∧ c ≠ '\x00')
    (hc : isws (cur line) = false) (hne : line ≠ [])
    (hq : quoted (line.takeWhile word_char) = true) (data : List Char) :
    parse_word (line ++ data) = .unexpected (cur (line.takeWhile word_char)) := by
  have hcur := cur_takeWhile_word_char hl hc hne data
  have : cur (line ++ data) = '"' ∨ cur (line ++ data) = Char.ofNat 39 := by
    rw [hcur]
    simpa [quoted] using hq
  rw [parse_word_quote this, hcur]

/-- Command of any line: `parse_command` stops the program at the first word that starts
with a quote, and returns the words up to the end of the line when there is none. -/
theorem parse_command_line (n : Nat) :
    ∀ (line data : List Char), line.length ≤ n → (∀ c ∈ line, c ≠ '\n' ∧ c ≠ '\x00') →
      (cur data == '\n' || cur data == '\x00') = true →
      parse_command (line ++ data) =
        match (words line).find? quoted with
        | some w => .unexpected (cur w)
        | none => .ok ((words line).map String.mk) data := by
  induction n with
  | zero =>
    intro line data hn _ hd
    have hl : line = [] := List.length_eq_zero.mp (Nat.le_zero.mp hn)
    subst hl
    exact parse_command_plain 0 [] data (Nat.le_refl _) (by decide) hd
  | succ n ih =>
    intro line data hn hl hd
    have hdwc : word_char (cur data) = false := by
      simp only [Bool.or_eq_true, beq_iff_eq] at hd
      rcases hd with hd | hd <;> rw [hd] <;> decide
    cases line with
    | nil => exact parse_command_plain 0 [] data (Nat.le_refl _) (by decide) hd
    | cons c cs =>
      by_cases hc : isws c = true
      · have h1 : parse_command (c :: cs ++ data) = parse_command (cs ++ data) := by
          rw [← parse_command_skip_ws, List.cons_append]
          simp only [parse_skip_ws, hc, if_true]
          exact parse_command_skip_ws _
        rw [h1, words_cons_ws hc]
        exact ih cs data (by simp only [List.length_cons] at hn; omega)
          (fun x hx => hl x (List.mem_cons_of_mem _ hx)) hd
      · have hc' : isws (cur (c :: cs)) = false := by simpa [cur] using hc
        have hstep := words_step hl hc' (List.cons_ne_nil _ _)
        have hc0 := hl c (List.mem_cons_self _ _)
        have hskip : parse_skip_ws (c :: cs ++ data) = c :: cs ++ data :=
          parse_skip_ws_eq_self (by simpa [cur] using hc)
        have hcond : (cur (c :: cs ++ data) == '\n' || cur (c :: cs ++ data) == '\x00') = false := by
          simp [cur, hc0.1, hc0.2]
        rw [parse_command_eq, hskip, hcond, hstep.2.1]
        simp only [Bool.false_eq_true, if_false]
        by_cases hq : quoted ((c :: cs).takeWhile word_char) = true
        · rw [parse_word_line_quoted hl hc' (List.cons_ne_nil _ _) hq]
          simp [List.find?_cons, hq]
        · have hq' : quoted ((c :: cs).takeWhile word_char) = false := by simpa using hq
          have hrec := ih ((c :: cs).dropWhile word_char) data
            (by have := hstep.2.2; omega)
            (fun x hx => hl x ((List.dropWhile_suffix word_char).subset hx)) hd
          rw [parse_word_line hl hc' (List.cons_ne_nil _ _) hq' data hdwc]
          simp only [List.find?_cons, hq', List.map_cons]
          rw [hrec]
          cases (words ((c :: cs).dropWhile word_char)).find? quoted <;> rfl

theorem word_char_stop {data : List Char} (h : word_char (cur data) = false) :
    data.takeWhile word_char = [] ∧ data.dropWhile word_char = data := by
  have := @word_char_takeWhile_append [] data (by simp) h
  simpa using this

theorem end_not_word_char {data : List Char}
    (hd : (cur data == '\n' || cur data == '\x00') = true) :
    word_char (cur data) = false ∧ isws (cur data) = false ∧ quoted data = false := by
  simp only [Bool.or_eq_true, beq_iff_eq] at hd
  rcases hd with hd | hd <;> simp only [quoted, hd] <;> decide

/-- One pass of `parse_lines` over any line `line`, ended by the newline or NUL under the
cursor `data` and entered on the newline that ends the line before: the program stops at the
first word of the line that starts with a quote; without such a word the rule of the line is
put in front of what the recursive call on `data` returns. -/
theorem parse_lines_line_any {line data : List Char} (hl : ∀ c ∈ line, c ≠ '\n' ∧ c ≠ '\x00')
    (hd : (cur data == '\n' || cur data == '\x00') = true)
    (h0 : (cur (line ++ data) == '\x00') = false) :
    parse_lines ('\n' :: (line ++ data)) =
      match (words line).find? quoted with
      | some w => .unexpected (cur w)
      | none => Parse.prepend (rule_of_line line) (parse_lines data) := by
  have hend := end_not_word_char hd
  have hskip : parse_skip_ws (line ++ data) = line.dropWhile isws ++ data :=
    parse_skip_ws_line _ _ hend.2.1
  have hl' : ∀ c ∈ line.dropWhile isws, c ≠ '\n' ∧ c ≠ '\x00' :=
    fun c hc => hl c ((List.dropWhile_suffix isws).subset hc)
  have hws := isws_cur_dropWhile line
  rw [parse_lines_eq, line_start_newline]
  simp only [h0, Bool.false_eq_true, if_false, hskip]
  by_cases hne : line.dropWhile isws = []
  · have hq := (quoted_iff data).mp hend.2.2
    have hw : parse_word data = .ok "" data := by
      rw [parse_word_unquoted hq.1 hq.2, (word_char_stop hend.1).1, (word_char_stop hend.1).2]
    have hc : parse_command (parse_skip_ws data) = .ok [] data := by
      rw [parse_command_skip_ws]
      exact parse_command_plain 0 [] _ (Nat.le_refl _) (by decide) hd
    have hwords : words line = [] := by rw [← words_dropWhile_ws, hne, words_nil]
    have hr : rule_of_line line = { mime := "", command := [] } := by
      simp [rule_of_line, hwords]
    rw [hne, List.nil_append, hw, hwords]
    simp only [hc, hr, List.find?_nil]
  · have hstep := words_step hl' hws hne
    have hwords : words line = (line.dropWhile isws).takeWhile word_char ::
        words ((line.dropWhile isws).dropWhile word_char) := by
      rw [← words_dropWhile_ws]; exact hstep.2.1
    rw [hwords]
    by_cases hq : quoted ((line.dropWhile isws).takeWhile word_char) = true
    · rw [parse_word_line_quoted hl' hws hne hq]
      simp [List.find?_cons, hq]
    · have hq' : quoted ((line.dropWhile isws).takeWhile word_char) = false := by simpa using hq
      have hc := parse_command_line _ ((line.dropWhile isws).dropWhile word_char) data
        (Nat.le_refl _) (fun x hx => hl' x ((List.dropWhile_suffix word_char).subset hx)) hd
      rw [← parse_command_skip_ws] at hc
      have hr : rule_of_line line =
          { mime := String.mk ((line.dropWhile isws).takeWhile word_char),
            command := (words ((line.dropWhile isws).dropWhile word_char)).map String.mk } := by
        simp [rule_of_line, hwords]
      rw [parse_word_line hl' hws hne hq' data hend.1]
      simp only [List.find?_cons, hq', hc, hr]
      cases (words ((line.dropWhile isws).dropWhile word_char)).find? quoted <;> rfl

/-- One pass of `parse_lines`, entered on a newline, over the line under the cursor `data`. -/
theorem parse_lines_first_line {data : List Char} (h0 : (cur data == '\x00') = false) :
    parse_lines ('\n' :: data) =
      match (words (data.takeWhile line_char)).find? quoted with
      | some w => .unexpected (cur w)
      | none => Parse.prepend (rule_of_line (data.takeWhile line_char))
          (parse_lines (data.dropWhile line_char)) := by
  have := @parse_lines_line_any (data.takeWhile line_char) (data.dropWhile line_char)
    (line_char_takeWhile data) (line_char_cur_dropWhile data)
    (by rw [List.takeWhile_append_dropWhile]; exact h0)
  rw [List.takeWhile_append_dropWhile] at this
  exact this

theorem parse_lines_at_end {data : List Char} (h0 : (cur data == '\x00') = true) :
    parse_lines data = .ok [] data ∧ parse_lines ('\n' :: data) = .ok [] data := by
  have hn : (cur data == '\n') = false := by
    simp only [beq_iff_eq] at h0
    rw [h0]; decide
  constructor
  · rw [parse_lines_eq]
    simp only [hn, Bool.false_eq_true, if_false, h0, if_true]
  · rw [parse_lines_eq, line_start_newline]
    simp only [h0, if_true]

/-- One pass of `parse_lines` from any cursor `x`: after the newline under the cursor, if
any, is consumed, the table ends on the NUL, or the program stops at the first quoted word of
the line, or the rule of the line is put in front of what the recursive call returns. -/
theorem parse_lines_step (x : List Char) :
    parse_lines x =
      if cur (if cur x == '\n' then x.tail else x) == '\x00' then
        .ok [] (if cur x == '\n' then x.tail else x)
      else
        match (words ((if cur x == '\n' then x.tail else x).takeWhile line_char)).find?
          quoted with
        | some w => .unexpected (cur w)
        | none =>
          Parse.prepend (rule_of_line ((if cur x == '\n' then x.tail else x).takeWhile line_char))
            (parse_lines ((if cur x == '\n' then x.tail else x).dropWhile line_char)) := by
  by_cases hx : cur x = '\n'
  · cases x with
    | nil => simp [cur] at hx
    | cons c y =>
      simp only [cur] at hx
      subst hx
      rw [line_start_newline]
      by_cases h0 : (cur y == '\x00') = true
      · rw [(parse_lines_at_end h0).2, if_pos h0]
      · rw [parse_lines_first_line (by simpa using h0), if_neg h0]
  · have hd : (if cur x == '\n' then x.tail else x) = x := by simp [hx]
    rw [hd]
    by_cases h0 : (cur x == '\x00') = true
    · rw [(parse_lines_at_end h0).1, if_pos h0]
    · rw [← parse_lines_newline hx, parse_lines_first_line (by simpa using h0), if_neg h0]

/-- The recursive call of `parse_lines_step` is made on a cursor further on. -/
theorem parse_lines_step_length (x : List Char)
    (h0 : (cur (if cur x == '\n' then x.tail else x) == '\x00') = false) :
    ((if cur x == '\n' then x.tail else x).dropWhile line_char).length < x.length := by
  cases x with
  | nil => simp [cur] at h0
  | cons c y =>
    by_cases hc : c = '\n'
    · subst hc
      rw [line_start_newline]
      have := (List.dropWhile_suffix line_char (l := y)).length_le
      simp only [List.length_cons]; omega
    · have hd : (if cur (c :: y) == '\n' then (c :: y).tail else c :: y) = c :: y := by
        simp [cur, hc]
      rw [hd] at h0 ⊢
      have hlc : line_char c = true := by
        simp only [cur, beq_eq_false_iff_ne, ne_eq] at h0
        simp [line_char, hc, h0]
      have := (List.dropWhile_suffix line_char (l := y)).length_le
      simp only [List.dropWhile_cons, hlc, if_true, List.length_cons]; omega

/-! ## End of the C string -/

theorem c_end_of_nul {data : List Char} (h : (cur data == '\x00') = true) : c_end data = data := by
  cases data with
  | nil => rfl
  | cons c cs =>
    simp only [cur, beq_iff_eq] at h
    simp [c_end, List.dropWhile_cons, h]

theorem c_end_dropWhile (p : Char → Bool) (hp : ∀ c, p c = true → c ≠ '\x00')
    (data : List Char) : c_end (data.dropWhile p) = c_end data := by
  induction data with
  | nil => rfl
  | cons c cs ih =>
    by_cases h : p c = true
    · have h0 := hp c h
      simp only [List.dropWhile_cons, h, if_true, ih]
      simp [c_end, List.dropWhile_cons, h0]
    · simp [List.dropWhile_cons, h]

theorem c_end_line_start (x : List Char) :
    c_end (if cur x == '\n' then x.tail else x) = c_end x := by
  cases x with
  | nil => rfl
  | cons c y =>
    by_cases hc : c = '\n'
    · subst hc
      rw [line_start_newline]
      simp [c_end, List.dropWhile_cons]
    · simp [cur, hc]

theorem cur_c_end (data : List Char) : cur (c_end data) = '\x00' := by
  induction data with
  | nil => rfl
  | cons c cs ih =>
    by_cases h : c = '\x00'
    · simp [c_end, List.dropWhile_cons, h, cur]
    · simpa [c_end, List.dropWhile_cons, h] using ih

/-! ## Scan for a quoted word -/

theorem quoted_word_from_stop {y : List Char} (h : word_char (cur y) = false) :
    quoted_word_from false y = quoted_word_from true y := by
  cases y with
  | nil => rfl
  | cons c ys =>
    simp only [cur] at h
    by_cases h0 : c = '\x00'
    · simp [quoted_word_from, h0]
    · have hq : (c == '"' || c == Char.ofNat 39) = false := by
        by_cases hn : c = '\n'
        · subst hn; decide
        · have hws : isws c = true := by
            by_contra hno
            have := (word_char_iff c).mpr (by
              simp only [isws, Bool.or_eq_true, beq_iff_eq, not_or] at hno
              exact ⟨hno.1, hno.2, hn, h0⟩)
            rw [h] at this; cases this
          simp only [isws, Bool.or_eq_true, beq_iff_eq] at hws
          rcases hws with e | e <;> subst e <;> decide
      simp only [quoted_word_from, hq, Bool.and_false, Bool.false_eq_true, if_false]

/-- Inside a word the scan goes on to the end of the word. -/
theorem quoted_word_from_word {w y : List Char} (hw : ∀ c ∈ w, word_char c = true)
    (hy : word_char (cur y) = false) :
    quoted_word_from false (w ++ y) = quoted_word_from true y := by
  induction w with
  | nil => exact quoted_word_from_stop hy
  | cons a w ih =>
    have ha := (word_char_iff a).mp (hw a (List.mem_cons_self _ _))
    have h0 : (a == '\x00') = false := by simpa using ha.2.2.2
    have hsep : (isws a || a == '\n') = false := by
      simp [isws, ha.1, ha.2.1, ha.2.2.1]
    simp only [List.cons_append, quoted_word_from, h0, Bool.false_and, Bool.false_eq_true,
      if_false, hsep]
    exact ih (fun c hc => hw c (List.mem_cons_of_mem _ hc))

/-- On a line, the scan finds a quoted word of the line or goes on after the line. -/
theorem quoted_word_from_line (n : Nat) :
    ∀ (line data : List Char), line.length ≤ n → (∀ c ∈ line, c ≠ '\n' ∧ c ≠ '\x00') →
      (cur data == '\n' || cur data == '\x00') = true →
      quoted_word_from true (line ++ data) =
        match (words line).find? quoted with
        | some _ => true
        | none => quoted_word_from true data := by
  induction n with
  | zero =>
    intro line data hn _ _
    have hl : line = [] := List.length_eq_zero.mp (Nat.le_zero.mp hn)
    subst hl
    rfl
  | succ n ih =>
    intro line data hn hl hd
    have hdwc := (end_not_word_char hd).1
    cases line with
    | nil => rfl
    | cons c cs =>
      have hc0 := hl c (List.mem_cons_self _ _)
      have h0 : (c == '\x00') = false := by simpa using hc0.2
      by_cases hc : isws c = true
      · have hq : (c == '"' || c == Char.ofNat 39) = false := by
          simp only [isws, Bool.or_eq_true, beq_iff_eq] at hc
          rcases hc with e | e <;> subst e <;> decide
        rw [words_cons_ws hc]
        simp only [List.cons_append, quoted_word_from, h0, hq, Bool.and_false,
          Bool.false_eq_true, if_false, hc, Bool.true_or]
        exact ih cs data (by simp only [List.length_cons] at hn; omega)
          (fun x hx => hl x (List.mem_cons_of_mem _ hx)) hd
      · have hc' : isws (cur (c :: cs)) = false := by simpa [cur] using hc
        have hstep := words_step hl hc' (List.cons_ne_nil _ _)
        have hwc : word_char c = true := by simp [word_char, hc, hc0.1, hc0.2]
        have htake : (c :: cs).takeWhile word_char = c :: cs.takeWhile word_char := by
          simp [List.takeWhile_cons, hwc]
        have hdrop : (c :: cs).dropWhile word_char = cs.dropWhile word_char := by
          simp [List.dropWhile_cons, hwc]
        rw [hstep.2.1]
        by_cases hq : quoted ((c :: cs).takeWhile word_char) = true
        · have hq' : (c == '"' || c == Char.ofNat 39) = true := by
            rw [htake] at hq; simpa [quoted, cur] using hq
          simp only [List.cons_append, quoted_word_from, h0, hq', Bool.and_true,
            Bool.false_eq_true, if_false, if_true, List.find?_cons, hq]
        · have hqf : quoted ((c :: cs).takeWhile word_char) = false := by simpa using hq
          have hq' : (c == '"' || c == Char.ofNat 39) = false := by
            rw [htake] at hqf; simpa [quoted, cur] using hqf
          have hsep : (isws c || c == '\n') = false := by simp [hc, hc0.1]
          have hrest : word_char (cur (cs.dropWhile word_char ++ data)) = false := by
            cases hr : cs.dropWhile word_char with
            | nil => simpa using hdwc
            | cons a as =>
              have := word_char_cur_dropWhile cs
              rw [hr] at this
              simpa [cur] using this
          have hword := @quoted_word_from_word (cs.takeWhile word_char)
            (cs.dropWhile word_char ++ data) (fun x hx => List.mem_takeWhile_imp hx) hrest
          rw [← List.append_assoc, List.takeWhile_append_dropWhile] at hword
          have hrec := ih (cs.dropWhile word_char) data
            (by have := hstep.2.2; rw [hdrop] at this; simp only [List.length_cons] at hn this; omega)
            (fun x hx => hl x (List.mem_cons_of_mem _ ((List.dropWhile_suffix word_char).subset hx)))
            hd
          simp only [List.cons_append, quoted_word_from, h0, hq', Bool.and_false,
            Bool.false_eq_true, if_false, hsep, List.find?_cons, hqf, hdrop]
          exact hword.trans hrec

theorem has_quoted_word_line_start (x : List Char) :
    has_quoted_word (if cur x == '\n' then x.tail else x) = has_quoted_word x := by
  cases x with
  | nil => rfl
  | cons c y =>
    by_cases hc : c = '\n'
    · subst hc
      rw [line_start_newline]
      rfl
    · simp [cur, hc]

theorem has_quoted_word_of_nul {data : List Char} (h : (cur data == '\x00') = true) :
    has_quoted_word data = false := by
  cases data with
  | nil => rfl
  | cons c cs =>
    simp only [cur] at h
    simp [has_quoted_word, quoted_word_from, h]

/-- Outcome of `parse_lines`: the syntax error when some word of the text starts with a
quote, and otherwise a table with the cursor on the NUL that ends the text. -/
theorem parse_lines_outcome (n : Nat) :
    ∀ x : List Char, x.length ≤ n →
      (has_quoted_word x = true → ∃ c, parse_lines x = .unexpected c) ∧
      (has_quoted_word x = false → ∃ table, parse_lines x = .ok table (c_end x)) := by
  induction n with
  | zero =>
    intro x hn
    have hx : x = [] := List.length_eq_zero.mp (Nat.le_zero.mp hn)
    subst hx
    exact ⟨fun h => absurd h (by decide), fun _ => ⟨[], by decide⟩⟩
  | succ n ih =>
    intro x hn
    rw [parse_lines_step, ← has_quoted_word_line_start x, ← c_end_line_start x]
    by_cases h0 : (cur (if cur x == '\n' then x.tail else x) == '\x00') = true
    · rw [if_pos h0, has_quoted_word_of_nul h0, c_end_of_nul h0]
      exact ⟨fun h => absurd h (by decide), fun _ => ⟨[], rfl⟩⟩
    · rw [if_neg h0]
      have hlen := parse_lines_step_length x (by simpa using h0)
      have hrec := ih ((if cur x == '\n' then x.tail else x).dropWhile line_char) (by omega)
      have hq := quoted_word_from_line _
        ((if cur x == '\n' then x.tail else x).takeWhile line_char)
        ((if cur x == '\n' then x.tail else x).dropWhile line_char) (Nat.le_refl _)
        (line_char_takeWhile _) (line_char_cur_dropWhile _)
      rw [List.takeWhile_append_dropWhile] at hq
      rw [c_end_dropWhile line_char (by intro c hc; simp [line_char] at hc; exact hc.2)] at hrec
      simp only [has_quoted_word] at hrec ⊢
      rw [hq]
      cases (words ((if cur x == '\n' then x.tail else x).takeWhile line_char)).find? quoted with
      | some w => exact ⟨fun _ => ⟨_, rfl⟩, fun h => Bool.noConfusion h⟩
      | none =>
        refine ⟨fun h => ?_, fun h => ?_⟩
        · obtain ⟨c, hc⟩ := hrec.1 h
          refine ⟨c, ?_⟩
          show Parse.prepend _ (parse_lines _) = _
          rw [hc]; rfl
        · obtain ⟨table, ht⟩ := hrec.2 h
          refine ⟨rule_of_line
            ((if cur x == '\n' then x.tail else x).takeWhile line_char) :: table, ?_⟩
          show Parse.prepend _ (parse_lines _) = _
          rw [ht]; rfl

theorem parse_command_ne_fuel (n : Nat) :
    ∀ data : List Char, data.length ≤ n → parse_command data ≠ .fuel := by
  induction n with
  | zero =>
    intro data hn
    have hd : data = [] := List.length_eq_zero.mp (Nat.le_zero.mp hn)
    subst hd
    decide
  | succ n ih =>
    intro data hn
    rw [parse_command_eq]
    have hle := parse_skip_ws_length_le data
    by_cases hend : (cur (parse_skip_ws data) == '\n' || cur (parse_skip_ws data) == '\x00') = true
    · simp only [hend, if_true]
      exact fun h => by cases h
    · simp only [hend, if_false]
      have hwc := word_char_of_not_end (isws_cur_parse_skip_ws data) (by simpa using hend)
      cases hw : parse_word (parse_skip_ws data) with
      | unexpected c => exact fun h => by cases h
      | fuel => exact absurd hw (parse_word_ne_fuel _)
      | ok str r =>
        have hlt := parse_word_ok_length_lt hw hwc
        have := ih r (by omega)
        simp only []
        cases hc : parse_command r with
        | unexpected c => exact fun h => by cases h
        | fuel => exact absurd hc this
        | ok next r2 => exact fun h => by cases h

/-- C16. Syntax-error characterisation: `parse_word` raises the error exactly when the
character under the cursor is a double or single quote, and the error names that character;
`parse_lines` raises it exactly when some word of the text, before the first NUL, starts with
a quote character, and returns a table for every other text. -/
theorem syntax_error_characterisation :
    (∀ data : List Char,
        (∃ c, parse_word data = .unexpected c) ↔ (cur data = '"' ∨ cur data = Char.ofNat 39)) ∧
      (∀ (data : List Char) (c : Char), parse_word data = .unexpected c → c = cur data) ∧
      (∀ text : List Char,
        (∃ c, parse_lines text = .unexpected c) ↔ has_quoted_word text = true) ∧
      ∀ text : List Char, has_quoted_word text = false →
        ∃ table, parse_lines text = .ok table (c_end text) := by
  have hword : ∀ (data : List Char) (c : Char), parse_word data = .unexpected c →
      (cur data = '"' ∨ cur data = Char.ofNat 39) ∧ c = cur data := by
    intro data c h
    by_cases h1 : cur data = '"'
    · rw [parse_word_quote (Or.inl h1)] at h
      injection h with hc
      exact ⟨Or.inl h1, hc.symm⟩
    · by_cases h2 : cur data = Char.ofNat 39
      · rw [parse_word_quote (Or.inr h2)] at h
        injection h with hc
        exact ⟨Or.inr h2, hc.symm⟩
      · rw [parse_word_unquoted h1 h2] at h; cases h
  refine ⟨fun data => ⟨fun ⟨c, h⟩ => (hword data c h).1, fun h => ⟨_, parse_word_quote h⟩⟩,
    fun data c h => (hword data c h).2, fun text => ⟨fun ⟨c, h⟩ => ?_, fun h => ?_⟩,
    fun text h => ((parse_lines_outcome _ text (Nat.le_refl _)).2 h)⟩
  · by_contra hno
    have hf : has_quoted_word text = false := by simpa using hno
    obtain ⟨table, ht⟩ := (parse_lines_outcome _ text (Nat.le_refl _)).2 hf
    rw [ht] at h; cases h
  · exact (parse_lines_outcome _ text (Nat.le_refl _)).1 h

/-- C16 on a text whose second line has a quoted command word, on a text with quotes inside
its words only, and on `parse_word` at a quote. -/
theorem syntax_error_characterisation_witness :
    (has_quoted_word "a b\nc 'd e'\n".toList = true ∧
        ∃ c, parse_lines "a b\nc 'd e'\n".toList = .unexpected c) ∧
      parse_lines "a b\nc 'd e'\n".toList = .unexpected (Char.ofNat 39) ∧
      (has_quoted_word "a\"b c'\n".toList = false ∧
        ∃ table, parse_lines "a\"b c'\n".toList = .ok table (c_end "a\"b c'\n".toList)) ∧
      ((cur "\"x".toList = '"' ∨ cur "\"x".toList = Char.ofNat 39) ∧
        ∃ c, parse_word "\"x".toList = .unexpected c) :=
  ⟨⟨by decide, (syntax_error_characterisation.2.2.1 "a b\nc 'd e'\n".toList).mpr (by decide)⟩,
    by decide,
    ⟨by decide, syntax_error_characterisation.2.2.2 "a\"b c'\n".toList (by decide)⟩,
    ⟨by decide, (syntax_error_characterisation.1 "\"x".toList).mpr (by decide)⟩⟩

/-- C18. Termination and full consumption: with more fuel than characters, `parse_lines` and
`parse_command` give their result and never run out of fuel, because each of their recursive
calls is made on a cursor strictly further into the text; `parse_lines` either raises the
syntax error or returns a table with the cursor on the NUL that terminates the text. -/
theorem parse_lines_terminates (data : List Char) :
    ((∃ c, parse_lines data = .unexpected c) ∨
        ∃ table, parse_lines data = .ok table (c_end data)) ∧
      cur (c_end data) = '\x00' ∧
      (∀ n, data.length < n → parse_lines_fuel n data = parse_lines data) ∧
      (∀ n, data.length < n →
        parse_command_fuel n data = parse_command data ∧ parse_command data ≠ .fuel) ∧
      (∀ (mime : String) (r1 : List Char) (command : List String) (r2 : List Char),
        (cur (if cur data == '\n' then data.tail else data) == '\x00') = false →
        parse_word (parse_skip_ws (if cur data == '\n' then data.tail else data)) = .ok mime r1 →
        parse_command (parse_skip_ws r1) = .ok command r2 → r2.length < data.length) ∧
      ∀ (str : String) (rest : List Char),
        (cur (parse_skip_ws data) == '\n' || cur (parse_skip_ws data) == '\x00') = false →
        parse_word (parse_skip_ws data) = .ok str rest → rest.length < data.length := by
  refine ⟨?_, cur_c_end data, fun n hn => parse_lines_fuel_eq hn,
    fun n hn => ⟨parse_command_fuel_eq hn, parse_command_ne_fuel _ data (Nat.le_refl _)⟩,
    fun mime r1 command r2 h0 hw hc => parse_lines_progress h0 hw hc,
    fun str rest hend hw => ?_⟩
  · have := parse_lines_outcome _ data (Nat.le_refl _)
    by_cases hq : has_quoted_word data = true
    · exact Or.inl (this.1 hq)
    · exact Or.inr (this.2 (by simpa using hq))
  · have hlt := parse_word_ok_length_lt hw
      (word_char_of_not_end (isws_cur_parse_skip_ws data) hend)
    have hle := parse_skip_ws_length_le data
    omega

/-- C18 on a text of two lines, the second without its newline, and on a text with a NUL in
the middle, where the cursor stops on that NUL. -/
theorem parse_lines_terminates_witness :
    parse_lines_fuel 8 "a b\nc d".toList =
        .ok [{ mime := "a", command := ["b"] }, { mime := "c", command := ["d"] }] [] ∧
      parse_lines_fuel 8 "a b\nc d".toList = parse_lines "a b\nc d".toList ∧
      c_end "a b\nc d".toList = [] ∧
      parse_lines ['a', '\x00', 'b'] = .ok [{ mime := "a", command := [] }] ['\x00', 'b'] ∧
      c_end ['a', '\x00', 'b'] = ['\x00', 'b'] ∧
      ((cur (parse_skip_ws " ab c".toList) == '\n' ||
          cur (parse_skip_ws " ab c".toList) == '\x00') = false ∧
        parse_word (parse_skip_ws " ab c".toList) = .ok "ab" " c".toList ∧
        " c".toList.length < " ab c".toList.length) :=
  ⟨by decide, (parse_lines_terminates "a b\nc d".toList).2.2.1 8 (by decide), by decide,
    by decide, by decide,
    ⟨by decide, by decide,
      (parse_lines_terminates " ab c".toList).2.2.2.2.2 "ab" " c".toList (by decide)
        (by decide)⟩⟩

/-! ## Newlines at the end of the text -/

theorem after_line_cases {s : List Char} (h : ∀ c ∈ s, c ≠ '\x00') :
    s.dropWhile line_char = [] ∨ ∃ d, s.dropWhile line_char = '\n' :: d := by
  have hend := line_char_cur_dropWhile s
  cases hr : s.dropWhile line_char with
  | nil => exact Or.inl rfl
  | cons c d =>
    right
    rw [hr] at hend
    have hmem : c ∈ s := by
      have : c ∈ s.dropWhile line_char := by rw [hr]; exact List.mem_cons_self _ _
      exact (List.dropWhile_suffix line_char).subset this
    have h0 := h c hmem
    simp only [cur, Bool.or_eq_true, beq_iff_eq] at hend
    rcases hend with e | e
    · exact ⟨d, by rw [e]⟩
    · exact absurd e h0

theorem line_end_cases {d : List Char} (z : List Char) (h : d = [] ∨ ∃ d', d = '\n' :: d') :
    (cur (d ++ '\n' :: z) == '\n' || cur (d ++ '\n' :: z) == '\x00') = true := by
  rcases h with h | ⟨d', h⟩ <;> subst h <;> simp [cur]

theorem line_not_nul {line : List Char} (hl : ∀ c ∈ line, c ≠ '\n' ∧ c ≠ '\x00')
    {d : List Char} (hd : (cur d == '\x00') = false) : (cur (line ++ d) == '\x00') = false := by
  cases line with
  | nil => exact hd
  | cons c cs => simpa [cur] using (hl c (List.mem_cons_self _ _)).2

/-- A newline added to a text that does not end with one changes nothing, here for the
text entered on a newline. -/
theorem final_newline_optional (n : Nat) :
    ∀ t : List Char, t.length < n → t ≠ [] → (∀ c ∈ t, c ≠ '\x00') →
      (∀ s, t ≠ s ++ ['\n']) →
      parse_lines ('\n' :: (t ++ ['\n'])) = parse_lines ('\n' :: t) := by
  induction n with
  | zero => intro t hn; omega
  | succ n ih =>
    intro t hn hne h0 hlast
    have ht := List.takeWhile_append_dropWhile line_char t
    have hl := line_char_takeWhile t
    have hcases := after_line_cases h0
    have hdlen := (List.dropWhile_suffix line_char (l := t)).length_le
    have hrec : parse_lines (t.dropWhile line_char ++ ['\n']) =
        parse_lines (t.dropWhile line_char) := by
      rcases hcases with hd | ⟨d, hd⟩
      · rw [hd]; decide
      · rw [hd] at ht hdlen ⊢
        simp only [List.length_cons] at hdlen
        have hd0 : ∀ c ∈ d, c ≠ '\x00' := fun c hc => h0 c (by
          rw [← ht]; exact List.mem_append_right _ (List.mem_cons_of_mem _ hc))
        have hdne : d ≠ [] := by
          intro e
          rw [e] at ht
          exact hlast _ ht.symm
        have hdlast : ∀ s, d ≠ s ++ ['\n'] := by
          intro s e
          rw [e] at ht
          exact hlast (t.takeWhile line_char ++ '\n' :: s)
            (by rw [List.append_assoc, List.cons_append]; exact ht.symm)
        exact ih d (by omega) hdne hd0 hdlast
    have hcur : (cur t == '\x00') = false := by
      cases t with
      | nil => exact absurd rfl hne
      | cons c cs => simpa [cur] using h0 c (List.mem_cons_self _ _)
    have h1 := @parse_lines_line_any (t.takeWhile line_char) (t.dropWhile line_char ++ ['\n'])
      hl (line_end_cases [] hcases)
      (by rw [← List.append_assoc, ht]
          cases t with
          | nil => exact absurd rfl hne
          | cons c cs => simpa [cur] using h0 c (List.mem_cons_self _ _))
    have h2 := @parse_lines_line_any (t.takeWhile line_char) (t.dropWhile line_char)
      hl (line_char_cur_dropWhile t) (by rw [ht]; exact hcur)
    rw [← List.append_assoc, ht] at h1
    rw [ht] at h2
    rw [h1, h2, hrec]

/-- A newline added to a text that ends with one adds the rule of an empty line at the end
of the table, here for the text entered on a newline. -/
theorem final_newline_repeated (n : Nat) :
    ∀ s : List Char, s.length < n → (∀ c ∈ s, c ≠ '\x00') →
      ∀ (table : List mime_command) (rest : List Char),
        parse_lines ('\n' :: (s ++ ['\n'])) = .ok table rest →
        parse_lines ('\n' :: (s ++ ['\n', '\n'])) =
          .ok (table ++ [{ mime := "", command := [] }]) [] := by
  induction n with
  | zero => intro s hn; omega
  | succ n ih =>
    intro s hn h0 table rest h
    have hs := List.takeWhile_append_dropWhile line_char s
    have hl := line_char_takeWhile s
    have hcases := after_line_cases h0
    have hdlen := (List.dropWhile_suffix line_char (l := s)).length_le
    have hnl : (cur (s.dropWhile line_char ++ ['\n']) == '\x00') = false := by
      rcases hcases with hd | ⟨d, hd⟩ <;> rw [hd] <;> simp [cur]
    have hnl2 : (cur (s.dropWhile line_char ++ ['\n', '\n']) == '\x00') = false := by
      rcases hcases with hd | ⟨d, hd⟩ <;> rw [hd] <;> simp [cur]
    have h1 := @parse_lines_line_any (s.takeWhile line_char) (s.dropWhile line_char ++ ['\n'])
      hl (line_end_cases [] hcases) (line_not_nul hl hnl)
    have h2 := @parse_lines_line_any (s.takeWhile line_char)
      (s.dropWhile line_char ++ ['\n', '\n']) hl (line_end_cases ['\n'] hcases)
      (line_not_nul hl hnl2)
    rw [← List.append_assoc, hs] at h1 h2
    rw [h1] at h
    rw [h2]
    cases hf : (words (s.takeWhile line_char)).find? quoted with
    | some w => rw [hf] at h; cases h
    | none =>
      rw [hf] at h
      simp only [] at h ⊢
      have hrec : ∀ (table2 : List mime_command) (rest2 : List Char),
          parse_lines (s.dropWhile line_char ++ ['\n']) = .ok table2 rest2 →
          parse_lines (s.dropWhile line_char ++ ['\n', '\n']) =
            .ok (table2 ++ [{ mime := "", command := [] }]) [] := by
        intro table2 rest2 h2
        rcases hcases with hd | ⟨d, hd⟩
        · rw [hd] at h2 ⊢
          have e1 : parse_lines ([] ++ ['\n']) = .ok [] [] := by decide
          rw [e1] at h2
          injection h2 with ht _
          rw [← ht]
          decide
        · rw [hd] at h2 hs hdlen ⊢
          simp only [List.length_cons] at hdlen
          have hd0 : ∀ c ∈ d, c ≠ '\x00' := fun c hc => h0 c (by
            rw [← hs]; exact List.mem_append_right _ (List.mem_cons_of_mem _ hc))
          exact ih d (by omega) hd0 table2 rest2 h2
      cases hp : parse_lines (s.dropWhile line_char ++ ['\n']) with
      | unexpected c => rw [hp] at h; cases h
      | fuel => rw [hp] at h; cases h
      | ok table2 rest2 =>
        rw [hp] at h
        simp only [Parse.prepend] at h
        injection h with ht _
        rw [hrec table2 rest2 hp, ← ht]
        rfl

/-- C19. Final newline: for a text `t` without NUL that does not end with a newline,
`parse_lines` gives the same result on `t` and on `t` followed by one newline; for a text `t`
that ends with a newline and parses into a table, `t` followed by one more newline parses
into that table followed by one rule with an empty media type and an empty command. -/
theorem final_newline (t : List Char) (h0 : ∀ c ∈ t, c ≠ '\x00') :
    ((∀ s, t ≠ s ++ ['\n']) → parse_lines (t ++ ['\n']) = parse_lines t) ∧
      ∀ (s : List Char) (table : List mime_command) (rest : List Char), t = s ++ ['\n'] →
        parse_lines t = .ok table rest →
        parse_lines (t ++ ['\n']) = .ok (table ++ [{ mime := "", command := [] }]) [] := by
  constructor
  · intro hlast
    cases t with
    | nil => decide
    | cons c cs =>
      by_cases hc : c = '\n'
      · subst hc
        have hne : cs ≠ [] := by
          intro e
          exact hlast [] (by rw [e]; rfl)
        exact final_newline_optional _ cs (Nat.lt_succ_self _) hne
          (fun x hx => h0 x (List.mem_cons_of_mem _ hx))
          (fun s e => hlast ('\n' :: s) (by rw [e]; rfl))
      · have h1 : cur (c :: cs ++ ['\n']) ≠ '\n' := by simpa [cur] using hc
        have h2 : cur (c :: cs) ≠ '\n' := by simpa [cur] using hc
        rw [← parse_lines_newline h1, ← parse_lines_newline h2]
        exact final_newline_optional _ (c :: cs) (Nat.lt_succ_self _) (List.cons_ne_nil _ _)
          h0 hlast
  · intro s table rest hs h
    subst hs
    have hs0 : ∀ c ∈ s, c ≠ '\x00' := fun c hc => h0 c (List.mem_append_left _ hc)
    have hassoc : s ++ ['\n'] ++ ['\n'] = s ++ ['\n', '\n'] := by simp
    rw [hassoc]
    cases s with
    | nil =>
      have e1 : parse_lines ([] ++ ['\n']) = .ok [] [] := by decide
      rw [e1] at h
      injection h with ht _
      rw [← ht]
      decide
    | cons c cs =>
      by_cases hc : c = '\n'
      · subst hc
        exact final_newline_repeated _ cs (Nat.lt_succ_self _)
          (fun x hx => hs0 x (List.mem_cons_of_mem _ hx)) table rest h
      · have h1 : cur (c :: cs ++ ['\n']) ≠ '\n' := by simpa [cur] using hc
        have h2 : cur (c :: cs ++ ['\n', '\n']) ≠ '\n' := by simpa [cur] using hc
        rw [← parse_lines_newline h1] at h
        rw [← parse_lines_newline h2]
        exact final_newline_repeated _ (c :: cs) (Nat.lt_succ_self _) hs0 table rest h

/-- C19 on a text without its final newline, and on a text that ends with a newline. -/
theorem final_newline_witness :
    ((∀ c ∈ "a b\nc".toList, c ≠ '\x00') ∧
        parse_lines ("a b\nc".toList ++ ['\n']) = parse_lines "a b\nc".toList ∧
        parse_lines "a b\nc".toList =
          .ok [{ mime := "a", command := ["b"] }, { mime := "c", command := [] }] []) ∧
      ((∀ c ∈ "a b\n".toList, c ≠ '\x00') ∧
        parse_lines "a b\n".toList = .ok [{ mime := "a", command := ["b"] }] [] ∧
        parse_lines ("a b\n".toList ++ ['\n']) =
          .ok ([{ mime := "a", command := ["b"] }] ++ [{ mime := "", command := [] }]) []) :=
  ⟨⟨by decide,
      (final_newline "a b\nc".toList (by decide)).1 (by
        intro s e
        have := congrArg List.getLast? e
        simp at this),
      by decide⟩,
    ⟨by decide, by decide,
      (final_newline "a b\n".toList (by decide)).2 "a b".toList _ [] (by decide) (by decide)⟩⟩

/-! ## Reading the configuration -/

theorem CHUNK_pos : 0 < CHUNK := by decide

/-- An iteration of the reading loop that gets a whole chunk: the chunk lands at the start
of the block, and the block is reallocated. -/
theorem read_loop_full (fuel chunk : Nat) (data : List (Option Char)) (n_alloc : Nat)
    (f : List Char) (h : chunk ≤ f.length) :
    read_loop_fuel (fuel + 1) chunk data n_alloc f =
      read_loop_fuel fuel chunk
        (realloc ((f.take chunk).map some ++ data.drop chunk) (chunk * (n_alloc + 1)))
        (n_alloc + 1) (f.drop chunk) := by
  have hlen : (f.take chunk).length = chunk := by
    rw [List.length_take]; omega
  simp only [read_loop_fuel, fread, hlen, beq_self_eq_true, if_true]

/-- The last iteration of the reading loop: what is left of the file lands at the start of
the block. -/
theorem read_loop_last (fuel chunk : Nat) (data : List (Option Char)) (n_alloc : Nat)
    (f : List Char) (h : f.length < chunk) :
    read_loop_fuel (fuel + 1) chunk data n_alloc f =
      some { data := f.map some ++ data.drop f.length, n_alloc := n_alloc, nread := f.length } := by
  have htake : f.take chunk = f := List.take_of_length_le (by omega)
  have hne : (f.length == chunk) = false := by
    simp only [beq_eq_false_iff_ne, ne_eq]; omega
  simp only [read_loop_fuel, fread, htake, hne, Bool.false_eq_true, if_false]

/-- A file shorter than `CHUNK` is read whole into the first block. -/
theorem read_short_file (file : List Char) (h : file.length < CHUNK) :
    read_whole_file file =
      some { data := file.map some ++ List.replicate (CHUNK - file.length) none,
             n_alloc := 0, nread := file.length } := by
  rw [read_whole_file, read_loop_last _ _ _ _ _ h]
  simp [malloc]

/-- A file of one whole chunk `a` and a shorter rest `b`: the block is still `CHUNK` bytes
long, and `b` has been written over the start of `a`. -/
theorem read_two_chunks (a b : List Char) (ha : a.length = CHUNK) (hb : b.length < CHUNK) :
    read_whole_file (a ++ b) =
      some { data := b.map some ++ (a.map some).drop b.length, n_alloc := 1,
             nread := b.length } := by
  have hpos := CHUNK_pos
  have hfuel : (a ++ b).length + 1 = ((a ++ b).length - 1 + 1) + 1 := by
    rw [List.length_append]; omega
  have htake : (a ++ b).take CHUNK = a := by
    rw [← ha]; exact List.take_left _ _
  have hdrop : (a ++ b).drop CHUNK = b := by
    rw [← ha]; exact List.drop_left _ _
  have hmalloc : (malloc CHUNK).drop CHUNK = [] := by simp [malloc]
  have hrealloc : realloc (a.map some ++ []) (CHUNK * (0 + 1)) = a.map some := by
    simp [realloc, ha]
  rw [read_whole_file, hfuel,
    read_loop_full _ _ _ _ _ (by rw [List.length_append]; omega), htake, hdrop, hmalloc,
    hrealloc, read_loop_last _ _ _ _ _ hb]

theorem c_string_terminated (text : List Char) (rest : List (Option Char)) :
    c_string (text.map some ++ some '\x00' :: rest) =
      some (text.takeWhile (fun c => c != '\x00')) := by
  induction text with
  | nil => simp [c_string]
  | cons c cs ih =>
    by_cases hc : c = '\x00'
    · simp [c_string, hc]
    · simp [c_string, hc, ih]

/-- For a file shorter than `CHUNK`, `parse_config` parses the bytes of the file. -/
theorem parse_config_short (file : List Char) (h : file.length < CHUNK) :
    parse_config (.ok file) = .parsed (parse_lines (file.takeWhile (fun c => c != '\x00'))) := by
  have hterm : terminate
      { data := file.map some ++ List.replicate (CHUNK - file.length) none,
        n_alloc := 0, nread := file.length } =
      some (file.map some ++ some '\x00' :: List.replicate (CHUNK - file.length - 1) none) := by
    have hlen : (file.map some).length = file.length := List.length_map _ _
    have hrep : List.replicate (CHUNK - file.length) (none : Option Char) =
        none :: List.replicate (CHUNK - file.length - 1) none := by
      rw [← List.replicate_succ]; congr 1; omega
    have hset := set_length_append (file.map some)
      (List.replicate (CHUNK - file.length) (none : Option Char)) (some '\x00')
    rw [hlen] at hset
    simp only [terminate, Nat.zero_mul, Nat.zero_add, List.length_append, hlen,
      List.length_replicate]
    rw [if_pos (by omega), hset, hrep]
    rfl
  simp only [parse_config, read_short_file file h, hterm, c_string_terminated]

/-- C13, the code at the failing input: for a file of 4097 bytes, 4096 times `a` and then
`b`, the block after the reading loop is 4096 bytes long and starts with `b`, the byte read
last, followed by the 4095 last `a` of the first chunk; the terminator would be stored at
index 4097, outside the block, and `parse_config` has undefined behaviour. -/
theorem whole_file_not_read :
    read_whole_file (List.replicate 4096 'a' ++ ['b']) =
        some { data := some 'b' :: List.replicate 4095 (some 'a'), n_alloc := 1, nread := 1 } ∧
      terminate { data := some 'b' :: List.replicate 4095 (some 'a'), n_alloc := 1, nread := 1 } =
        none ∧
      parse_config (.ok (List.replicate 4096 'a' ++ ['b'])) = .undefined := by
  have hread : read_whole_file (List.replicate 4096 'a' ++ ['b']) =
      some { data := some 'b' :: List.replicate 4095 (some 'a'), n_alloc := 1, nread := 1 } := by
    rw [read_two_chunks (List.replicate 4096 'a') ['b']
      (by rw [List.length_replicate]; rfl) (by decide), List.map_replicate,
      List.drop_replicate]
    rfl
  have hterm : terminate
      { data := some 'b' :: List.replicate 4095 (some 'a'), n_alloc := 1, nread := 1 } = none := by
    simp only [terminate, List.length_cons, List.length_replicate]
    exact if_neg (by decide)
  refine ⟨hread, hterm, ?_⟩
  simp only [parse_config, hread, hterm]

/-- C14. Config failure short-circuits the run: when `config` cannot be opened (and an
argument is given), `main` ends with status 1 after the `fopen` call alone, without a call of
`get_mime_type` and without `execvp`; with `argc == 1` it returns 1 without any call. -/
theorem config_failure_short_circuits :
    (∀ (argv : List String) (env : Env) (err : String), argv.length ≠ 1 →
        env.config = .error err →
        main argv env = .ended [.fopen "config"] (.exit 1 ("mime-run: " ++ err ++ "\n"))) ∧
      ∀ (argv : List String) (env : Env), argv.length = 1 →
        main argv env = .ended [] (.exit 1 "mime-run: Filename is not given.") := by
  constructor
  · intro argv env err hargc hconfig
    have h1 : (argv.length == 1) = false := by simpa using hargc
    simp only [main, h1, Bool.false_eq_true, if_false, hconfig, parse_config]
  · intro argv env hargc
    have h1 : (argv.length == 1) = true := by simpa using hargc
    simp only [main, h1, if_true]

/-- C14 on a run with a file name and no `config` file, and on a run without argument. -/
theorem config_failure_short_circuits_witness :
    main ["mime-run", "f.txt"]
        { config := .error "No such file or directory",
          classify := fun _ => .ok "text/plain" } =
        .ended [.fopen "config"] (.exit 1 "mime-run: No such file or directory\n") ∧
      main ["mime-run"]
        { config := .ok "text/plain cat\n".toList,
          classify := fun _ => .ok "text/plain" } =
        .ended [] (.exit 1 "mime-run: Filename is not given.") :=
  ⟨(config_failure_short_circuits.1 ["mime-run", "f.txt"] _ "No such file or directory"
      (by decide) rfl).trans (by decide),
    config_failure_short_circuits.2 ["mime-run"] _ rfl⟩

/-- C15, the code at the failing input: for a file of exactly 4096 bytes the block after the
reading loop has 4096 bytes (one `realloc` to `CHUNK * 1`) and `total` is 4096, so the number
of bytes allocated is not greater than `total` and the terminator is stored outside the
block. -/
theorem terminator_out_of_bounds :
    read_whole_file (List.replicate 4096 'a') =
        some { data := List.replicate 4096 (some 'a'), n_alloc := 1, nread := 0 } ∧
      (List.replicate 4096 (some 'a')).length = 4096 ∧
      1 * CHUNK + 0 = 4096 ∧
      terminate { data := List.replicate 4096 (some 'a'), n_alloc := 1, nread := 0 } = none := by
  have hread := read_two_chunks (List.replicate 4096 'a') []
    (by rw [List.length_replicate]; rfl) (by decide)
  refine ⟨?_, List.length_replicate _ _, by decide, ?_⟩
  · rw [List.append_nil, List.map_replicate] at hread
    rw [hread]
    rfl
  · simp only [terminate, List.length_replicate]
    exact if_neg (by decide)

end MimeRun
